import Mathlib

/-!
Verification of the iguana evidence-driven system modeler.

This file shallowly embeds the parts of the Go source that the claims
C1..C10 are about and proves (or refutes) each claim:

* `internal/frontmatter` (Parse / Write) — the markdown frontmatter codec;
* `system_model.go` (evidenceRef, computeBundleSetHash, buildInventory,
  buildBoundaries, buildEffects, buildConcurrencyDomains, pkgBundleRefs,
  linkEffectsToDomains, SystemModelUpToDate) — the model aggregator;
* `evidence_v2.go` (Signals, extractSignals, writeBundleAt) — the v2
  evidence bundle layer;
* `internal/static/analyzer.go` (signals, extractSignals, writeBundle) —
  the static plugin bundle writer;
* `settings.go` (Settings.IsDenied, parseDenyRule, matchDenyPattern) — the
  deny matcher;
* `internal/export` (buildRiskReport, findCycles) — the risk report and
  import-cycle detector.

Strings are modelled as Lean `String` (or `List Char` where positional
reasoning is needed); Go byte-wise string comparison agrees with the
code-point order used here on the UTF-8 strings involved, since UTF-8
byte order coincides with code-point order.
-/

namespace Iguana

/-! ## Generic list/char helpers -/

/-- `leadsWith p s` is true iff the list `p` is a prefix of `s`
(Go `bytes.HasPrefix` / `strings.HasPrefix` on character lists). -/
def leadsWith : List Char → List Char → Bool
  | [], _ => true
  | _ :: _, [] => false
  | p :: ps, c :: cs => p = c && leadsWith ps cs

/-- Index of the first occurrence of `pat` as a contiguous sublist of `s`
(Go `bytes.Index`), `none` when absent. -/
def findSub (pat : List Char) : List Char → Option Nat
  | [] => if leadsWith pat [] then some 0 else none
  | c :: t =>
      if leadsWith pat (c :: t) then some 0
      else (findSub pat t).map (· + 1)

theorem leadsWith_append_self (p s : List Char) :
    leadsWith p (p ++ s) = true := by
  induction p with
  | nil => rfl
  | cons c cs ih => simp [leadsWith, ih]

theorem leadsWith_of_append (p u w : List Char) (h : leadsWith p u = true) :
    leadsWith p (u ++ w) = true := by
  induction p generalizing u with
  | nil => rfl
  | cons c cs ih =>
      cases u with
      | nil => simp [leadsWith] at h
      | cons a as =>
          simp only [leadsWith, Bool.and_eq_true, decide_eq_true_eq] at h ⊢
          exact ⟨h.1, ih as h.2⟩

theorem leadsWith_trunc (p u w : List Char) (hlen : p.length ≤ u.length)
    (h : leadsWith p (u ++ w) = true) : leadsWith p u = true := by
  induction p generalizing u with
  | nil => rfl
  | cons c cs ih =>
      cases u with
      | nil => simp at hlen
      | cons a as =>
          simp only [leadsWith, Bool.and_eq_true, decide_eq_true_eq] at h ⊢
          exact ⟨h.1, ih as (Nat.succ_le_succ_iff.mp hlen) h.2⟩

theorem leadsWith_get (p s : List Char) (h : leadsWith p s = true) :
    ∀ k, k < p.length → s.get? k = p.get? k := by
  induction p generalizing s with
  | nil => intro k hk; simp at hk
  | cons c cs ih =>
      cases s with
      | nil => simp [leadsWith] at h
      | cons a as =>
          simp only [leadsWith, Bool.and_eq_true, decide_eq_true_eq] at h
          intro k hk
          cases k with
          | zero => simp [h.1]
          | succ n =>
              simpa using ih as h.2 n (Nat.lt_of_succ_lt_succ hk)

theorem findSub_eq_first (pat s : List Char) (i : Nat)
    (hhit : leadsWith pat (s.drop i) = true)
    (hmin : ∀ j, j < i → leadsWith pat (s.drop j) = false) :
    findSub pat s = some i := by
  induction s generalizing i with
  | nil =>
      cases i with
      | zero => simp only [List.drop] at hhit; simp [findSub, hhit]
      | succ n =>
          have := hmin 0 (Nat.succ_pos n)
          simp only [List.drop] at hhit this
          rw [this] at hhit; cases hhit
  | cons c t ih =>
      cases i with
      | zero =>
          simp only [List.drop] at hhit
          simp [findSub, hhit]
      | succ n =>
          have h0 : leadsWith pat (c :: t) = false := by
            have := hmin 0 (Nat.succ_pos n)
            simpa using this
          have hrec : findSub pat t = some n := by
            apply ih n
            · simpa using hhit
            · intro j hj
              have := hmin (j + 1) (Nat.succ_lt_succ hj)
              simpa using this
          simp [findSub, h0, hrec]

/-! ## C10: the frontmatter codec (`internal/frontmatter/frontmatter.go`) -/

namespace Frontmatter

/-- The opening delimiter `"---\n"`. -/
def delim : List Char := ['-', '-', '-', '\n']

/-- The closing-delimiter search pattern `"\n---"`. -/
def closePat : List Char := ['\n', '-', '-', '-']

/-- `Parse` splits a markdown document into frontmatter and body
(embedding of `frontmatter.Parse`): require prefix `"---\n"`, find the
first `"\n---"`, take what precedes it as frontmatter, skip the closing
delimiter and one optional newline. -/
def Parse (data : List Char) : Option (List Char × List Char) :=
  if leadsWith delim data then
    let rest := data.drop 4
    match findSub closePat rest with
    | none => none
    | some idx =>
        let fm := rest.take idx
        let tail0 := rest.drop (idx + 4)
        let tail := if tail0.head? = some '\n' then tail0.tail else tail0
        some (fm, tail)
  else none

/-- `Write fm body` concatenates `"---\n"`, the marshalled frontmatter
bytes `fm`, `"---\n"`, and the body (embedding of `frontmatter.Write`;
the Go code appends the body only when non-empty, which coincides with
unconditional append). `fm` stands for the output of `yaml.Marshal`,
which always ends in a newline. -/
def Write (fm body : List Char) : List Char :=
  delim ++ fm ++ ['-', '-', '-', '\n'] ++ body

/-- `hasDashLine fm` holds iff some line of `fm` begins with `"---"`:
either `fm` itself starts with it, or `"\n---"` occurs in `fm`. -/
def hasDashLine (fm : List Char) : Bool :=
  leadsWith ['-', '-', '-'] fm ||
    (List.range fm.length).any (fun i => leadsWith closePat (fm.drop i))

theorem no_occ_of_not_hasDashLine (fm : List Char)
    (h : hasDashLine fm = false) :
    ∀ i, leadsWith closePat (fm.drop i) = false := by
  intro i
  by_cases hi : i < fm.length
  · simp only [hasDashLine, Bool.or_eq_false_iff, List.any_eq_false] at h
    have := h.2 i (List.mem_range.mpr hi)
    simpa using this
  · have : fm.drop i = [] := List.drop_eq_nil_of_le (Nat.le_of_not_lt hi)
    rw [this]; rfl

theorem findSub_at_boundary (fm' r : List Char)
    (hnd : hasDashLine (fm' ++ ['\n']) = false) :
    findSub closePat (fm' ++ (closePat ++ r)) = some fm'.length := by
  apply findSub_eq_first
  · rw [List.drop_left]
    exact leadsWith_append_self closePat r
  · intro j hj
    by_contra hcon
    have htrue : leadsWith closePat ((fm' ++ (closePat ++ r)).drop j) = true := by
      cases h : leadsWith closePat ((fm' ++ (closePat ++ r)).drop j)
      · exact absurd h hcon
      · rfl
    have hdropj : (fm' ++ (closePat ++ r)).drop j
        = fm'.drop j ++ (closePat ++ r) := by
      rw [List.drop_append_eq_append_drop]
      have : j - fm'.length = 0 := Nat.sub_eq_zero_of_le (Nat.le_of_lt hj)
      rw [this, List.drop_zero]
    have hocc := Frontmatter.no_occ_of_not_hasDashLine _ hnd
    by_cases hcase : j + 4 ≤ fm'.length
    · -- an occurrence that lies wholly inside fm' is an occurrence in fm
      have hlen : closePat.length ≤ (fm'.drop j).length := by
        simp only [closePat, List.length_cons, List.length_nil, List.length_drop]
        omega
      have h1 : leadsWith closePat (fm'.drop j) = true := by
        rw [hdropj] at htrue
        exact leadsWith_trunc _ _ _ hlen htrue
      have h2 : leadsWith closePat ((fm' ++ ['\n']).drop j) = true := by
        have : (fm' ++ ['\n']).drop j = fm'.drop j ++ ['\n'] := by
          rw [List.drop_append_eq_append_drop]
          have : j - fm'.length = 0 := Nat.sub_eq_zero_of_le (Nat.le_of_lt hj)
          rw [this, List.drop_zero]
        rw [this]
        exact leadsWith_of_append _ _ _ h1
      rw [hocc j] at h2
      cases h2
    · -- an occurrence straddling the boundary would put a dash at the
      -- newline position
      have hk1 : 1 ≤ fm'.length - j := by omega
      have hk4 : fm'.length - j < 4 := by omega
      have hchar := leadsWith_get _ _ htrue (fm'.length - j) (by
        simp only [closePat, List.length_cons, List.length_nil]
        omega)
      have hleft : ((fm' ++ (closePat ++ r)).drop j).get? (fm'.length - j)
          = (fm' ++ (closePat ++ r)).get? fm'.length := by
        rw [List.get?_drop]
        congr 1
        omega
      have hnl : (fm' ++ (closePat ++ r)).get? fm'.length = some '\n' := by
        rw [List.get?_append_right (Nat.le_refl _)]
        simp [closePat]
      have hdash : closePat.get? (fm'.length - j) = some '-' := by
        interval_cases h : (fm'.length - j) <;> rfl
      rw [hleft, hnl, hdash] at hchar
      cases hchar

/-- C10. Frontmatter codec round-trip: writing a document from marshalled
frontmatter bytes `fm' ++ "\n"` (YAML marshalling always ends in a
newline) none of whose lines begins with `---`, then parsing it, yields
the marshalled bytes with the trailing newline removed, and exactly the
original body. -/
theorem frontmatter_roundtrip (fm' body : List Char)
    (hnd : hasDashLine (fm' ++ ['\n']) = false) :
    Parse (Write (fm' ++ ['\n']) body) = some (fm', body) := by
  have hshape : Write (fm' ++ ['\n']) body
      = delim ++ (fm' ++ (closePat ++ ('\n' :: body))) := by
    simp [Write, delim, closePat]
  rw [hshape]
  unfold Parse
  rw [if_pos (leadsWith_append_self delim _)]
  have hrest : (delim ++ (fm' ++ (closePat ++ ('\n' :: body)))).drop 4
      = fm' ++ (closePat ++ ('\n' :: body)) := by
    have : (4 : Nat) = delim.length := rfl
    rw [this, List.drop_left]
  simp only [hrest]
  rw [findSub_at_boundary fm' _ hnd]
  simp only []
  have htake : (fm' ++ (closePat ++ ('\n' :: body))).take fm'.length = fm' :=
    List.take_left _ _
  have hdrop : (fm' ++ (closePat ++ ('\n' :: body))).drop (fm'.length + 4)
      = '\n' :: body := by
    rw [List.drop_append_eq_append_drop]
    have h1 : fm'.length + 4 - fm'.length = 4 := by omega
    have h2 : fm'.drop (fm'.length + 4) = [] :=
      List.drop_eq_nil_of_le (by omega)
    rw [h1, h2]
    simp [closePat]
  rw [htake, hdrop]
  simp

/-- C10 witness: the round-trip at a concrete frontmatter and body. -/
theorem frontmatter_roundtrip_witness :
    hasDashLine ("tags: x".toList ++ ['\n']) = false ∧
      Parse (Write ("tags: x".toList ++ ['\n']) "hello".toList)
        = some ("tags: x".toList, "hello".toList) :=
  ⟨by decide, frontmatter_roundtrip "tags: x".toList "hello".toList (by decide)⟩

end Frontmatter

/-! ## SHA-256 (`crypto/sha256`), executable over `Nat` bytes -/

namespace SHA256

/-- Truncate to a 32-bit word. -/
def w32 (x : Nat) : Nat := x % 4294967296

/-- Right rotation of a 32-bit word. -/
def rotr (n x : Nat) : Nat := w32 ((x >>> n) ||| (x <<< (32 - n)))

def smallSigma0 (x : Nat) : Nat := (rotr 7 x) ^^^ (rotr 18 x) ^^^ (x >>> 3)

def smallSigma1 (x : Nat) : Nat := (rotr 17 x) ^^^ (rotr 19 x) ^^^ (x >>> 10)

def bigSigma0 (x : Nat) : Nat := (rotr 2 x) ^^^ (rotr 13 x) ^^^ (rotr 22 x)

def bigSigma1 (x : Nat) : Nat := (rotr 6 x) ^^^ (rotr 11 x) ^^^ (rotr 25 x)

def chWord (x y z : Nat) : Nat := (x &&& y) ^^^ ((x ^^^ 4294967295) &&& z)

def majWord (x y z : Nat) : Nat := (x &&& y) ^^^ (x &&& z) ^^^ (y &&& z)

/-- The 64 round constants (decimal values of the standard table). -/
def K : List Nat :=
  [1116352408, 1899447441, 3049323471, 3921009573, 961987163, 1508970993,
   2453635748, 2870763221, 3624381080, 310598401, 607225278, 1426881987,
   1925078388, 2162078206, 2614888103, 3248222580, 3835390401, 4022224774,
   264347078, 604807628, 770255983, 1249150122, 1555081692, 1996064986,
   2554220882, 2821834349, 2952996808, 3210313671, 3336571891, 3584528711,
   113926993, 338241895, 666307205, 773529912, 1294757372, 1396182291,
   1695183700, 1986661051, 2177026350, 2456956037, 2730485921, 2820302411,
   3259730800, 3345764771, 3516065817, 3600352804, 4094571909, 275423344,
   430227734, 506948616, 659060556, 883997877, 958139571, 1322822218,
   1537002063, 1747873779, 1955562222, 2024104815, 2227730452, 2361852424,
   2428436474, 2756734187, 3204031479, 3329325298]

/-- The initial hash state (decimal values of the standard table). -/
def H0 : List Nat :=
  [1779033703, 3144134277, 1013904242, 2773480762,
   1359893119, 2600822924, 528734635, 1541459225]

/-- Big-endian bytes of the 64-bit message length. -/
def lenBytes (n : Nat) : List Nat :=
  [(n >>> 56) &&& 255, (n >>> 48) &&& 255, (n >>> 40) &&& 255,
   (n >>> 32) &&& 255, (n >>> 24) &&& 255, (n >>> 16) &&& 255,
   (n >>> 8) &&& 255, n &&& 255]

/-- Append the `0x80` byte, zero padding to 56 mod 64, and the length. -/
def padMessage (msg : List Nat) : List Nat :=
  let L := msg.length
  let k := (120 - ((L + 1) % 64)) % 64
  msg ++ [0x80] ++ List.replicate k 0 ++ lenBytes (L * 8)

/-- Big-endian 32-bit words from bytes. -/
def bytesToWords : List Nat → List Nat
  | a :: b :: c :: d :: rest =>
      (a * 16777216 + b * 65536 + c * 256 + d) :: bytesToWords rest
  | _ => []

/-- One message-schedule extension step. -/
def scheduleStep (w : List Nat) : List Nat :=
  w ++ [w32 (smallSigma1 (w.getD (w.length - 2) 0) + w.getD (w.length - 7) 0
      + smallSigma0 (w.getD (w.length - 15) 0) + w.getD (w.length - 16) 0)]

/-- Full 64-word message schedule from a 16-word block. -/
def schedule (block : List Nat) : List Nat := scheduleStep^[48] block

/-- One compression round over the 8-word state. -/
def round (st : List Nat) (kw : Nat × Nat) : List Nat :=
  match st with
  | [a, b, c, d, e, f, g, h] =>
      let t1 := w32 (h + bigSigma1 e + chWord e f g + kw.2 + kw.1)
      let t2 := w32 (bigSigma0 a + majWord a b c)
      [w32 (t1 + t2), a, b, c, w32 (d + t1), e, f, g]
  | other => other

/-- Compress one 16-word block into the hash state. -/
def compressBlock (h : List Nat) (block : List Nat) : List Nat :=
  let st := ((schedule block).zip K).foldl round h
  (h.zip st).map (fun p => w32 (p.1 + p.2))

/-- Split words into 16-word blocks. -/
def splitBlocks : List Nat → List (List Nat)
  | w0 :: w1 :: w2 :: w3 :: w4 :: w5 :: w6 :: w7 ::
    w8 :: w9 :: w10 :: w11 :: w12 :: w13 :: w14 :: w15 :: rest =>
      [w0, w1, w2, w3, w4, w5, w6, w7,
       w8, w9, w10, w11, w12, w13, w14, w15] :: splitBlocks rest
  | _ => []

/-- Big-endian bytes of a 32-bit word. -/
def wordBytes (x : Nat) : List Nat :=
  [(x >>> 24) &&& 255, (x >>> 16) &&& 255, (x >>> 8) &&& 255, x &&& 255]

/-- SHA-256 digest (32 bytes) of a byte list. -/
def sha256 (msg : List Nat) : List Nat :=
  ((splitBlocks (bytesToWords (padMessage msg))).foldl compressBlock H0).foldr
    (fun x acc => wordBytes x ++ acc) []

end SHA256

/-! ## Hex encoding (`encoding/hex`, lowercase) and UTF-8 bytes -/

/-- The lowercase hex alphabet. -/
def hexChars : List Char := "0123456789abcdef".data

def hexDigit (n : Nat) : Char := hexChars.getD n '0'

/-- Two lowercase hex digits of a byte (for bytes the `% 16` on the high
nibble is the identity; it mirrors `b >> 4` on a `byte`). -/
def hexByte (b : Nat) : List Char := [hexDigit ((b >>> 4) % 16), hexDigit (b % 16)]

/-- `hex.EncodeToString`: lowercase hex of a byte list. -/
def hexEncode (bs : List Nat) : String :=
  ⟨bs.foldr (fun b acc => hexByte b ++ acc) []⟩

/-- UTF-8 encoding of one character. -/
def utf8Char (c : Char) : List Nat :=
  let n := c.toNat
  if n < 0x80 then [n]
  else if n < 0x800 then [0xC0 ||| (n >>> 6), 0x80 ||| (n &&& 0x3F)]
  else if n < 0x10000 then
    [0xE0 ||| (n >>> 12), 0x80 ||| ((n >>> 6) &&& 0x3F), 0x80 ||| (n &&& 0x3F)]
  else
    [0xF0 ||| (n >>> 18), 0x80 ||| ((n >>> 12) &&& 0x3F),
     0x80 ||| ((n >>> 6) &&& 0x3F), 0x80 ||| (n &&& 0x3F)]

/-- UTF-8 bytes of a string (Go strings are UTF-8 byte sequences). -/
def strBytes (s : String) : List Nat :=
  s.data.foldr (fun c acc => utf8Char c ++ acc) []

/-! ## Evidence bundle data model (`internal/evidence`, as used by the
model aggregator in `system_model.go`) -/

/-- `evidence.FileMeta`: path and content hash of the analysed file. -/
structure FileMeta where
  path : String
  sha256 : String
  deriving DecidableEq

/-- One import entry (only the path participates in aggregation). -/
structure ImportMeta where
  path : String
  deriving DecidableEq

/-- `evidence.PackageMeta`. -/
structure PackageMeta where
  name : String
  imports : List ImportMeta
  deriving DecidableEq

/-- One function symbol (the aggregator only reads its name). -/
structure FunctionSym where
  name : String
  deriving DecidableEq

/-- `evidence.Symbols`, restricted to the field the aggregator reads. -/
structure Symbols where
  functions : List FunctionSym
  deriving DecidableEq

/-- The signal booleans the aggregator reads. -/
structure Signals where
  fsReads : Bool
  fsWrites : Bool
  dbCalls : Bool
  netCalls : Bool
  concurrency : Bool
  deriving DecidableEq

/-- `evidence.EvidenceBundle`, restricted to the fields the model
aggregator reads. -/
structure EvidenceBundle where
  version : Nat
  file : FileMeta
  pkg : PackageMeta
  symbols : Symbols
  signals : Signals
  deriving DecidableEq

namespace Model

/-- `sort.Strings` (the Go sort is some sorted permutation of its input;
insertion sort realises it). -/
def sortStrings (l : List String) : List String :=
  List.insertionSort (· ≤ ·) l

/-- `computeBundleSetHash`: hex SHA-256 over the sorted `path@sha256`
lines joined by `"\n"` (embedding of `computeBundleSetHash` in
`system_model.go`). -/
def computeBundleSetHash (bundles : List EvidenceBundle) : String :=
  let lines := bundles.map (fun b => b.file.path ++ "@" ++ b.file.sha256)
  let sorted := sortStrings lines
  let combined := String.intercalate "\n" sorted
  hexEncode (SHA256.sha256 (strBytes combined))

/-- Modelled from the spec's words for comparison: "hex-lowercase SHA-256
of the byte string formed by sorting the lines `<file.path>@<file.sha256>`
across the full bundle set, joined by `\n`, with no trailing newline"
(using a different sorting algorithm than the embedding above). -/
def specBundleSetHash (bundles : List EvidenceBundle) : String :=
  hexEncode (SHA256.sha256 (strBytes (String.intercalate "\n"
    (List.mergeSort (bundles.map (fun b => b.file.path ++ "@" ++ b.file.sha256))
      (fun a b => a ≤ b)))))

theorem sortStrings_perm (l l' : List String) (h : l.Perm l') :
    sortStrings l = sortStrings l' := by
  apply List.eq_of_perm_of_sorted (r := (· ≤ · : String → String → Prop))
      (((List.perm_insertionSort _ l).trans h).trans
        (List.perm_insertionSort _ l').symm)
  · exact List.sorted_insertionSort _ l
  · exact List.sorted_insertionSort _ l'

theorem hexDigit_mem (n : Nat) : hexDigit (n % 16) ∈ hexChars := by
  have h : n % 16 < 16 := Nat.mod_lt _ (by norm_num)
  set m := n % 16 with hm
  interval_cases m <;> decide

theorem hexEncode_chars (bs : List Nat) :
    ∀ c ∈ (hexEncode bs).data, c ∈ hexChars := by
  induction bs with
  | nil => intro c hc; simp [hexEncode] at hc
  | cons b t ih =>
      intro c hc
      simp only [hexEncode, List.foldr_cons] at hc
      rcases List.mem_append.mp hc with h | h
      · simp only [hexByte, List.mem_cons, List.mem_singleton] at h
        rcases h with h | h | h
        · rw [h]; exact hexDigit_mem (b >>> 4)
        · rw [h]; exact hexDigit_mem b
        · cases h
      · exact ih c h

/-- C2. `computeBundleSetHash` returns the lowercase-hex SHA-256 of the
sorted `path@sha256` lines joined by newlines (agreeing with the
spec-side definition), and is invariant under permutation of the bundle
list. -/
theorem computeBundleSetHash_spec :
    (∀ bs, computeBundleSetHash bs = specBundleSetHash bs) ∧
      (∀ bs bs', bs.Perm bs' →
        computeBundleSetHash bs = computeBundleSetHash bs') ∧
      (∀ bs, ∀ c ∈ (computeBundleSetHash bs).data, c ∈ hexChars) := by
  refine ⟨?_, ?_, ?_⟩
  · intro bs
    unfold computeBundleSetHash specBundleSetHash sortStrings
    rw [List.mergeSort_eq_insertionSort (r := (· ≤ ·))]
  · intro bs bs' h
    simp only [computeBundleSetHash]
    rw [sortStrings_perm _ _ (h.map _)]
  · intro bs
    exact hexEncode_chars _

/-- C2 witness: permutation invariance at two concrete bundles. -/
theorem computeBundleSetHash_witness :
    computeBundleSetHash
        [⟨2, ⟨"a.go", "aa"⟩, ⟨"main", []⟩, ⟨[]⟩, ⟨false, false, false, false, false⟩⟩,
         ⟨2, ⟨"b.go", "bb"⟩, ⟨"main", []⟩, ⟨[]⟩, ⟨false, false, false, false, false⟩⟩]
      = computeBundleSetHash
        [⟨2, ⟨"b.go", "bb"⟩, ⟨"main", []⟩, ⟨[]⟩, ⟨false, false, false, false, false⟩⟩,
         ⟨2, ⟨"a.go", "aa"⟩, ⟨"main", []⟩, ⟨[]⟩, ⟨false, false, false, false, false⟩⟩] :=
  computeBundleSetHash_spec.2.1 _ _ (List.Perm.swap _ _ _)

/-! ## Model aggregator structures and builders (`system_model.go`) -/

structure PackageEntry where
  name : String
  files : List String
  imports : List String
  evidenceRefs : List String
  deriving DecidableEq

structure Entrypoint where
  pkg : String
  symbol : String
  evidenceRefs : List String
  deriving DecidableEq

structure Inventory where
  packages : List PackageEntry
  entrypoints : List Entrypoint
  deriving DecidableEq

structure SymbolRef where
  file : String
  evidenceRefs : List String
  deriving DecidableEq

structure PersistenceBoundary where
  kind : String
  writers : List SymbolRef
  deriving DecidableEq

structure NetworkBoundary where
  outbound : List SymbolRef
  deriving DecidableEq

structure Boundaries where
  persistence : List PersistenceBoundary
  network : Option NetworkBoundary
  deriving DecidableEq

structure Effect where
  kind : String
  domain : String
  via : String
  evidenceRefs : List String
  deriving DecidableEq

structure ConcurrencyDomain where
  id : String
  files : List String
  evidenceRefs : List String
  deriving DecidableEq

/-- `StateDomain`, restricted to the fields the aggregation and linkage
logic reads (the confidence score is only copied through). -/
structure StateDomain where
  id : String
  description : String
  owners : List String
  aggregate : String
  representations : List String
  primaryMutators : List String
  primaryReaders : List String
  evidenceRefs : List String
  deriving DecidableEq

/-- `evidenceRef`: formats `bundle:<path>@v<version>[#<fragment>]`. -/
def evidenceRef (path : String) (version : Nat) (fragment : String) : String :=
  let base := "bundle:" ++ path ++ "@v" ++ toString version
  if fragment ≠ "" then base ++ "#" ++ fragment else base

/-- `hasSymbol`: whether the bundle declares a function of this name. -/
def hasSymbol (b : EvidenceBundle) (name : String) : Bool :=
  b.symbols.functions.any (fun fn => fn.name == name)

/-- Last `/`-separated segment of an import path. -/
def lastSegment (p : String) : String := (p.splitOn "/").getLastD ""

/-- Intra-repo imports of one package: last segments of the import
paths of its bundles that name another known package, sorted. -/
def pkgImportsOf (bundles : List EvidenceBundle) (pkgNames : List String)
    (name : String) : List String :=
  sortStrings ((((bundles.filter (fun b => b.pkg.name == name)).bind
      (fun b => b.pkg.imports.map (fun imp => lastSegment imp.path))).filter
    (fun dep => pkgNames.contains dep && dep != name)).dedup)

/-- `buildInventory`: group bundles by package (names sorted), collect
sorted files and evidence refs, compute intra-repo imports, and emit one
entrypoint per `package main` bundle containing a `main` function. -/
def buildInventory (bundles : List EvidenceBundle) : Inventory :=
  let pkgNames := sortStrings ((bundles.map (fun b => b.pkg.name)).dedup)
  let entries := pkgNames.map (fun name =>
    { name := name
      files := sortStrings ((bundles.filter (fun b => b.pkg.name == name)).map
        (fun b => b.file.path))
      imports := pkgImportsOf bundles pkgNames name
      evidenceRefs := sortStrings ((bundles.filter
        (fun b => b.pkg.name == name)).map
        (fun b => evidenceRef b.file.path b.version "")) : PackageEntry })
  let entrypoints := if pkgNames.contains "main" then
      (bundles.filter (fun b => b.pkg.name == "main" && hasSymbol b "main")).map
        (fun b =>
          { pkg := b.pkg.name
            symbol := "main"
            evidenceRefs := [evidenceRef b.file.path b.version "symbol:main"] })
    else []
  { packages := entries, entrypoints := entrypoints }

/-- `buildBoundaries`: persistence writers (db then fs) and outbound
network entries from the bundle signals. -/
def buildBoundaries (bundles : List EvidenceBundle) : Boundaries :=
  let dbWriters := (bundles.filter (fun b => b.signals.dbCalls)).map (fun b =>
    ({ file := b.file.path
       evidenceRefs := [evidenceRef b.file.path b.version "signal:db_calls"] } : SymbolRef))
  let fsWriters := (bundles.filter (fun b => b.signals.fsWrites)).map (fun b =>
    ({ file := b.file.path
       evidenceRefs := [evidenceRef b.file.path b.version "signal:fs_writes"] } : SymbolRef))
  let outbound := (bundles.filter (fun b => b.signals.netCalls)).map (fun b =>
    ({ file := b.file.path
       evidenceRefs := [evidenceRef b.file.path b.version "signal:net_calls"] } : SymbolRef))
  { persistence :=
      (if dbWriters ≠ [] then [{ kind := "db", writers := dbWriters }] else []) ++
        (if fsWriters ≠ [] then [{ kind := "fs", writers := fsWriters }] else [])
    network := if outbound ≠ [] then some { outbound := outbound } else none }

/-- Ordering used by `buildEffects`: by kind, then via. -/
def effectLe (a b : Effect) : Prop :=
  a.kind < b.kind ∨ (a.kind = b.kind ∧ a.via ≤ b.via)

instance : DecidableRel effectLe := fun a b => by
  unfold effectLe; infer_instance

/-- `buildEffects`: one effect per true signal per bundle, sorted by
(kind, via). -/
def buildEffects (bundles : List EvidenceBundle) : List Effect :=
  let effects := bundles.bind (fun b =>
    (if b.signals.dbCalls then
      [{ kind := "db_write", domain := "", via := b.file.path
         evidenceRefs := [evidenceRef b.file.path b.version "signal:db_calls"] }]
     else []) ++
    (if b.signals.fsReads then
      [{ kind := "fs_read", domain := "", via := b.file.path
         evidenceRefs := [evidenceRef b.file.path b.version "signal:fs_reads"] }]
     else []) ++
    (if b.signals.fsWrites then
      [{ kind := "fs_write", domain := "", via := b.file.path
         evidenceRefs := [evidenceRef b.file.path b.version "signal:fs_writes"] }]
     else []) ++
    (if b.signals.netCalls then
      [{ kind := "net_call", domain := "", via := b.file.path
         evidenceRefs := [evidenceRef b.file.path b.version "signal:net_calls"] }]
     else []))
  List.insertionSort effectLe effects

/-- `buildConcurrencyDomains`: one domain per bundle with the concurrency
signal, sorted by id (the file path). -/
def buildConcurrencyDomains (bundles : List EvidenceBundle) : List ConcurrencyDomain :=
  let domains := (bundles.filter (fun b => b.signals.concurrency)).map (fun b =>
    ({ id := b.file.path
       files := [b.file.path]
       evidenceRefs := [evidenceRef b.file.path b.version "signal:concurrency"] } : ConcurrencyDomain))
  List.insertionSort (fun a b => a.id ≤ b.id) domains

/-- `pkgBundleRefs`: sorted bare refs of all bundles in the given
packages. -/
def pkgBundleRefs (bundles : List EvidenceBundle) (pkgNames : List String) : List String :=
  sortStrings ((bundles.filter (fun b => pkgNames.contains b.pkg.name)).map
    (fun b => evidenceRef b.file.path b.version ""))

theorem mem_sortStrings {l : List String} {x : String} :
    x ∈ sortStrings l ↔ x ∈ l :=
  (List.perm_insertionSort _ l).mem_iff

theorem evidenceRef_eq_empty (p : String) (v : Nat) :
    evidenceRef p v "" = "bundle:" ++ p ++ "@v" ++ toString v := by
  simp [evidenceRef]

theorem evidenceRef_eq_frag (p : String) (v : Nat) (f : String) (h : f ≠ "") :
    evidenceRef p v f = "bundle:" ++ p ++ "@v" ++ toString v ++ "#" ++ f := by
  simp [evidenceRef, h]

/-- The long evidence-ref form: `bundle:<path>@v<version>`, optionally
followed by a `#symbol:`/`#signal:` fragment, for some loaded bundle. -/
def refOK (bundles : List EvidenceBundle) (r : String) : Prop :=
  ∃ b ∈ bundles,
    r = "bundle:" ++ b.file.path ++ "@v" ++ toString b.version ∨
    ∃ frag ∈ ["symbol:main", "signal:db_calls", "signal:fs_reads",
              "signal:fs_writes", "signal:net_calls", "signal:concurrency"],
      r = "bundle:" ++ b.file.path ++ "@v" ++ toString b.version ++ "#" ++ frag

theorem mem_if_singleton {α : Type} {a x : α} {c : Prop} [Decidable c]
    (h : a ∈ (if c then [x] else [])) : a = x := by
  split at h
  · simpa using h
  · simp at h

theorem refOK_of_mem_empty {bundles : List EvidenceBundle}
    {b : EvidenceBundle} (hb : b ∈ bundles) :
    refOK bundles (evidenceRef b.file.path b.version "") :=
  ⟨b, hb, Or.inl (evidenceRef_eq_empty _ _)⟩

theorem refOK_of_mem_frag {bundles : List EvidenceBundle}
    {b : EvidenceBundle} (hb : b ∈ bundles) (frag : String)
    (hf : frag ∈ ["symbol:main", "signal:db_calls", "signal:fs_reads",
                  "signal:fs_writes", "signal:net_calls", "signal:concurrency"]) :
    refOK bundles (evidenceRef b.file.path b.version frag) := by
  have hne : frag ≠ "" := by
    simp only [List.mem_cons, List.mem_singleton, List.not_mem_nil,
      or_false] at hf
    rcases hf with h | h | h | h | h | h <;> (subst h; decide)
  exact ⟨b, hb, Or.inr ⟨frag, hf, evidenceRef_eq_frag _ _ _ hne⟩⟩

/-- C1 counterexample: for a `main` bundle the emitted entrypoint
reference carries the `@v2` infix and is not the short
`bundle:<path>#symbol:main` form the claim states. -/
theorem evidenceRef_short_form_cex :
    ∃ ep ∈ (buildInventory
        [{ version := 2, file := ⟨"main.go", "ab"⟩, pkg := ⟨"main", []⟩,
           symbols := ⟨[⟨"main"⟩]⟩,
           signals := ⟨false, false, false, false, false⟩ }]).entrypoints,
      ep.evidenceRefs = ["bundle:main.go@v2#symbol:main"] ∧
        ep.evidenceRefs ≠ ["bundle:main.go#symbol:main"] := by
  decide

/-- C1 amended: every evidence reference emitted into the deterministic
model sections has exactly the long form
`bundle:<path>@v<version>[#symbol:<name>|#signal:<name>]` for some loaded
bundle, and for every `main` bundle with a `main` function the emitted
entrypoint reference is exactly `bundle:<path>@v<version>#symbol:main`. -/
theorem evidenceRef_long_form (bundles : List EvidenceBundle) :
    (∀ e ∈ (buildInventory bundles).packages, ∀ r ∈ e.evidenceRefs,
        refOK bundles r) ∧
    (∀ ep ∈ (buildInventory bundles).entrypoints, ∃ b ∈ bundles,
        b.pkg.name = "main" ∧ hasSymbol b "main" = true ∧ ep.pkg = "main" ∧
          ep.symbol = "main" ∧
          ep.evidenceRefs
            = ["bundle:" ++ b.file.path ++ "@v" ++ toString b.version
                ++ "#" ++ "symbol:main"]) ∧
    (∀ pb ∈ (buildBoundaries bundles).persistence, ∀ w ∈ pb.writers,
        ∀ r ∈ w.evidenceRefs, refOK bundles r) ∧
    (∀ nb, (buildBoundaries bundles).network = some nb →
        ∀ w ∈ nb.outbound, ∀ r ∈ w.evidenceRefs, refOK bundles r) ∧
    (∀ ef ∈ buildEffects bundles, ∀ r ∈ ef.evidenceRefs, refOK bundles r) ∧
    (∀ cd ∈ buildConcurrencyDomains bundles, ∀ r ∈ cd.evidenceRefs,
        refOK bundles r) ∧
    (∀ pkgNames, ∀ r ∈ pkgBundleRefs bundles pkgNames, refOK bundles r) := by
  refine ⟨?_, ?_, ?_, ?_, ?_, ?_, ?_⟩
  · intro e he r hr
    simp only [buildInventory, List.mem_map] at he
    obtain ⟨name, _, rfl⟩ := he
    simp only [mem_sortStrings, List.mem_map] at hr
    obtain ⟨b, hb, rfl⟩ := hr
    exact refOK_of_mem_empty (List.mem_of_mem_filter hb)
  · intro ep hep
    simp only [buildInventory] at hep
    split at hep
    · simp only [List.mem_map] at hep
      obtain ⟨b, hb, rfl⟩ := hep
      have hcond := List.of_mem_filter hb
      simp only [Bool.and_eq_true, beq_iff_eq] at hcond
      refine ⟨b, List.mem_of_mem_filter hb, hcond.1, hcond.2, hcond.1, rfl, ?_⟩
      rw [evidenceRef_eq_frag _ _ _ (by decide)]
    · simp at hep
  · intro pb hpb w hw r hr
    simp only [buildBoundaries, List.mem_append] at hpb
    rcases hpb with h | h
    all_goals {
      have := mem_if_singleton h
      subst this
      simp only [List.mem_map] at hw
      obtain ⟨b, hb, rfl⟩ := hw
      simp only [List.mem_singleton] at hr
      subst hr
      first
      | exact refOK_of_mem_frag (List.mem_of_mem_filter hb)
          "signal:db_calls" (by decide)
      | exact refOK_of_mem_frag (List.mem_of_mem_filter hb)
          "signal:fs_writes" (by decide)
    }
  · intro nb hnb w hw r hr
    simp only [buildBoundaries] at hnb
    split at hnb
    · cases hnb
      simp only [List.mem_map] at hw
      obtain ⟨b, hb, rfl⟩ := hw
      simp only [List.mem_singleton] at hr
      subst hr
      exact refOK_of_mem_frag (List.mem_of_mem_filter hb)
        "signal:net_calls" (by decide)
    · cases hnb
  · intro ef hef r hr
    have hef' : ef ∈ bundles.bind _ :=
      (List.perm_insertionSort effectLe _).subset hef
    simp only [List.mem_bind] at hef'
    obtain ⟨b, hb, hmem⟩ := hef'
    simp only [List.mem_append] at hmem
    rcases hmem with ((h | h) | h) | h
    all_goals {
      have := mem_if_singleton h
      subst this
      simp only [List.mem_singleton] at hr
      subst hr
      first
      | exact refOK_of_mem_frag hb "signal:db_calls" (by decide)
      | exact refOK_of_mem_frag hb "signal:fs_reads" (by decide)
      | exact refOK_of_mem_frag hb "signal:fs_writes" (by decide)
      | exact refOK_of_mem_frag hb "signal:net_calls" (by decide)
    }
  · intro cd hcd r hr
    simp only [buildConcurrencyDomains] at hcd
    replace hcd := (List.perm_insertionSort
      (fun a b : ConcurrencyDomain => a.id ≤ b.id) _).subset hcd
    simp only [List.mem_map] at hcd
    obtain ⟨b, hb, rfl⟩ := hcd
    simp only [List.mem_singleton] at hr
    subst hr
    exact refOK_of_mem_frag (List.mem_of_mem_filter hb)
      "signal:concurrency" (by decide)
  · intro pkgNames r hr
    simp only [pkgBundleRefs, mem_sortStrings, List.mem_map] at hr
    obtain ⟨b, hb, rfl⟩ := hr
    exact refOK_of_mem_empty (List.mem_of_mem_filter hb)

/-- C1 amended witness: the long form at a concrete bundle list. -/
theorem evidenceRef_long_form_witness :
    refOK
      [{ version := 2, file := ⟨"main.go", "ab"⟩, pkg := ⟨"main", []⟩,
         symbols := ⟨[⟨"main"⟩]⟩,
         signals := ⟨false, false, false, false, false⟩ }]
      "bundle:main.go@v2" :=
  (evidenceRef_long_form _).2.2.2.2.2.2 ["main"] _ (by decide)

/-! ## Effect-domain linkage (`linkEffectsToDomains` in `system_model.go`) -/

/-- The `fileToPkg` map: file path → package name of its bundle; built by
insertion in bundle order with overwrite, so the last bundle with a given
path wins; missing keys yield `""` (the Go zero value). -/
def fileToPkg (bundles : List EvidenceBundle) (path : String) : String :=
  ((bundles.reverse.find? (fun b => b.file.path == path)).map
    (fun b => b.pkg.name)).getD ""

/-- The `pkgToDomain` map: package → domain ID of the first domain (in
list order) listing the package among its owners ("first owner wins");
missing keys yield `""`. -/
def pkgToDomain (domains : List StateDomain) (pkg : String) : String :=
  ((domains.find? (fun d => decide (pkg ∈ d.owners))).map (fun d => d.id)).getD ""

/-- `linkEffectsToDomains` (the in-place mutation is modelled as a map):
each effect's domain is resolved via file → package → first owning
domain. -/
def linkEffectsToDomains (effects : List Effect) (domains : List StateDomain)
    (bundles : List EvidenceBundle) : List Effect :=
  effects.map (fun e =>
    { e with domain := pkgToDomain domains (fileToPkg bundles e.via) })

theorem find?_unique {α : Type} (p : α → Bool) (l : List α) (b : α)
    (hb : b ∈ l) (hpb : p b = true)
    (huniq : ∀ x ∈ l, p x = true → x = b) : l.find? p = some b := by
  induction l with
  | nil => cases hb
  | cons a t ih =>
      by_cases hpa : p a = true
      · rw [List.find?_cons_of_pos _ hpa]
        rw [huniq a (List.mem_cons_self a t) hpa]
      · rw [List.find?_cons_of_neg _ (by simpa using hpa)]
        have hba : b ≠ a := fun h => hpa (h ▸ hpb)
        exact ih ((List.mem_cons.mp hb).resolve_left hba)
          (fun x hx hpx => huniq x (List.mem_cons_of_mem a hx) hpx)

theorem fileToPkg_eq (bundles : List EvidenceBundle) (b : EvidenceBundle)
    (hnodup : (bundles.map (fun b => b.file.path)).Nodup)
    (hb : b ∈ bundles) : fileToPkg bundles b.file.path = b.pkg.name := by
  have hinj := List.inj_on_of_nodup_map hnodup
  have hfind : bundles.reverse.find? (fun x => x.file.path == b.file.path)
      = some b := by
    apply find?_unique _ _ b (List.mem_reverse.mpr hb) (by simp)
    intro x hx hpx
    simp only [beq_iff_eq] at hpx
    exact hinj (List.mem_reverse.mp hx) hb hpx
  simp [fileToPkg, hfind]

theorem fileToPkg_none (bundles : List EvidenceBundle) (via : String)
    (hnone : ∀ b ∈ bundles, b.file.path ≠ via) :
    fileToPkg bundles via = "" := by
  have hfind : bundles.reverse.find? (fun x => x.file.path == via) = none := by
    rw [List.find?_eq_none]
    intro x hx
    simpa using hnone x (List.mem_reverse.mp hx)
  simp [fileToPkg, hfind]

theorem pkgToDomain_spec (domains : List StateDomain) (pkg : String)
    (hsorted : domains.Sorted (fun a b => a.id ≤ b.id)) :
    (∃ d ∈ domains, pkg ∈ d.owners ∧ pkgToDomain domains pkg = d.id ∧
        ∀ d' ∈ domains, pkg ∈ d'.owners → d.id ≤ d'.id) ∨
      ((∀ d ∈ domains, pkg ∉ d.owners) ∧ pkgToDomain domains pkg = "") := by
  induction domains with
  | nil => right; exact ⟨by simp, rfl⟩
  | cons d ds ih =>
      by_cases hd : pkg ∈ d.owners
      · left
        refine ⟨d, List.mem_cons_self d ds, hd, ?_, ?_⟩
        · simp only [pkgToDomain]
          rw [List.find?_cons_of_pos _ (by simpa using hd)]
          rfl
        · intro d' hd' _
          rcases List.mem_cons.mp hd' with h | h
          · rw [h]
          · exact List.rel_of_sorted_cons hsorted d' h
      · have heq : pkgToDomain (d :: ds) pkg = pkgToDomain ds pkg := by
          simp only [pkgToDomain]
          rw [List.find?_cons_of_neg _ (by simpa using hd)]
        rcases ih hsorted.of_cons with ⟨d', hd', hown, hval, hmin⟩ | ⟨hnone, hval⟩
        · left
          refine ⟨d', List.mem_cons_of_mem d hd', hown, heq ▸ hval, ?_⟩
          intro d'' hd'' hown''
          rcases List.mem_cons.mp hd'' with h | h
          · exact absurd (h ▸ hown'') hd
          · exact hmin d'' h hown''
        · right
          refine ⟨?_, heq ▸ hval⟩
          intro d'' hd''
          rcases List.mem_cons.mp hd'' with h | h
          · exact h ▸ hd
          · exact hnone d'' h

/-- The property C6 claims of the linkage output (wrapped as a definition
so instances of it are closed statements). -/
def LinkedCorrectly (effects : List Effect) (domains : List StateDomain)
    (bundles : List EvidenceBundle) : Prop :=
  (linkEffectsToDomains effects domains bundles).map (fun e => e.via)
      = effects.map (fun e => e.via) ∧
    ∀ e ∈ linkEffectsToDomains effects domains bundles,
      (∀ b ∈ bundles, b.file.path = e.via →
        (∃ d ∈ domains, b.pkg.name ∈ d.owners ∧ e.domain = d.id ∧
            ∀ d' ∈ domains, b.pkg.name ∈ d'.owners → d.id ≤ d'.id) ∨
          ((∀ d ∈ domains, b.pkg.name ∉ d.owners) ∧ e.domain = "")) ∧
      ((∀ b ∈ bundles, b.file.path ≠ e.via) → e.domain = "")

/-- C6. After linkage, every effect's domain is the ID of the first state
domain in sorted-by-ID order owning the package of the bundle whose path
is the effect's `via`; when no domain owns that package, or no bundle has
that path, the domain is left empty. (Bundle paths are distinct, domains
are sorted by ID as `mapStateDomains` guarantees, and package names are
non-empty.) -/
theorem linkEffectsToDomains_spec (effects : List Effect)
    (domains : List StateDomain) (bundles : List EvidenceBundle)
    (hsorted : domains.Sorted (fun a b => a.id ≤ b.id))
    (hnodup : (bundles.map (fun b => b.file.path)).Nodup)
    (hown : ∀ d ∈ domains, "" ∉ d.owners) :
    LinkedCorrectly effects domains bundles := by
  constructor
  · simp [linkEffectsToDomains]
  · intro e he
    simp only [linkEffectsToDomains, List.mem_map] at he
    obtain ⟨e0, _, rfl⟩ := he
    constructor
    · intro b hb hpath
      have hpkg : fileToPkg bundles e0.via = b.pkg.name := by
        rw [← hpath]; exact fileToPkg_eq bundles b hnodup hb
      have := pkgToDomain_spec domains b.pkg.name hsorted
      simpa [hpkg] using this
    · intro hnone
      have hpkg : fileToPkg bundles e0.via = "" :=
        fileToPkg_none bundles e0.via (by simpa using hnone)
      rcases pkgToDomain_spec domains "" hsorted with ⟨d, hd, hin, _, _⟩ | ⟨_, hval⟩
      · exact absurd hin (hown d hd)
      · simpa [hpkg] using hval

/-- C6 witness: linkage at a concrete model. -/
theorem linkEffectsToDomains_witness :
    LinkedCorrectly
      [{ kind := "fs_write", domain := "", via := "store/db.go",
         evidenceRefs := [] }]
      [{ id := "user_state", description := "", owners := ["store"],
         aggregate := "", representations := [], primaryMutators := [],
         primaryReaders := [], evidenceRefs := [] }]
      [{ version := 2, file := ⟨"store/db.go", "cd"⟩, pkg := ⟨"store", []⟩,
         symbols := ⟨[]⟩, signals := ⟨false, true, true, false, false⟩ }] :=
  linkEffectsToDomains_spec _ _ _ (by decide) (by decide) (by decide)

/-! ## Up-to-date check (`SystemModelUpToDate` in `system_model.go`) -/

structure ModelInputs where
  bundleSetSHA256 : String
  deriving DecidableEq

structure TrustZone where
  id : String
  packages : List String
  externalVia : List String
  evidenceRefs : List String
  deriving DecidableEq

structure OpenQuestion where
  question : String
  relatedDomain : String
  missingEvidence : List String
  deriving DecidableEq

/-- `SystemModel`, restricted to the fields the verified operations read
(the confidence score of a state domain is only copied through and is
omitted). -/
structure SystemModel where
  version : Nat
  generatedAt : String
  inputs : ModelInputs
  inventory : Inventory
  stateDomains : List StateDomain
  boundaries : Boundaries
  effects : List Effect
  trustZones : List TrustZone
  concurrencyDomains : List ConcurrencyDomain
  openQuestions : List OpenQuestion
  deriving DecidableEq

/-- `SystemModelUpToDate`: the bundle load outcome and the model-file
read outcome are passed explicitly (`none` models a file that does not
exist or cannot be read or decoded). -/
def SystemModelUpToDate (loaded : Except String (List EvidenceBundle))
    (readResult : Option SystemModel) : Except String Bool :=
  match loaded with
  | .error e => .error ("load bundles: " ++ e)
  | .ok bundles =>
      if bundles.length = 0 then .ok false
      else
        match readResult with
        | none => .ok false
        | some m => .ok (m.inputs.bundleSetSHA256 == computeBundleSetHash bundles)

/-- C9. `SystemModelUpToDate` returns false when no bundles exist;
returns false (not an error) when the model file is missing or
unreadable; and otherwise returns true iff the stored
`inputs.bundle_set_sha256` equals the freshly computed bundle-set hash. -/
theorem systemModelUpToDate_spec :
    (∀ r, SystemModelUpToDate (.ok []) r = .ok false) ∧
      (∀ bundles, SystemModelUpToDate (.ok bundles) none = .ok false) ∧
      (∀ bundles m, bundles ≠ [] →
        (SystemModelUpToDate (.ok bundles) (some m) = .ok true ↔
          m.inputs.bundleSetSHA256 = computeBundleSetHash bundles)) := by
  refine ⟨fun r => rfl, ?_, ?_⟩
  · intro bundles
    cases bundles <;> rfl
  · intro bundles m hne
    have hlen : ¬ bundles.length = 0 := by
      simpa [List.length_eq_zero] using hne
    simp [SystemModelUpToDate, hlen]

/-- C9 witness: the hash comparison at a concrete bundle list and model. -/
theorem systemModelUpToDate_witness :
    SystemModelUpToDate
        (.ok [{ version := 2, file := ⟨"main.go", "ab"⟩, pkg := ⟨"main", []⟩,
                symbols := ⟨[]⟩,
                signals := ⟨false, false, false, false, false⟩ }])
        (some { version := 1, generatedAt := "", inputs := ⟨"nope"⟩,
                inventory := ⟨[], []⟩, stateDomains := [],
                boundaries := ⟨[], none⟩, effects := [], trustZones := [],
                concurrencyDomains := [], openQuestions := [] })
      = .ok true ↔
      "nope" = computeBundleSetHash
        [{ version := 2, file := ⟨"main.go", "ab"⟩, pkg := ⟨"main", []⟩,
           symbols := ⟨[]⟩, signals := ⟨false, false, false, false, false⟩ }] :=
  systemModelUpToDate_spec.2.2 _ _ (by decide)

end Model

/-! ## String helpers mirroring `strings.Contains` / `strings.HasPrefix` -/

/-- `strings.Contains` (character-level; equal to Go's byte-level search
for the valid-UTF-8 patterns involved). -/
def strContainsSub (s sub : String) : Bool := (findSub sub.data s.data).isSome

/-- `strings.HasPrefix`. -/
def strStartsWith (s pre : String) : Bool := leadsWith pre.data s.data

theorem contains_mem (l : List String) (x : String) :
    l.contains x = true ↔ x ∈ l := by simp

/-! ## v2 signal extraction (`extractSignals` in `evidence_v2.go`) -/

namespace V2

/-- An import entry of `evidence_v2.go`'s `PackageMeta`. -/
structure Import where
  path : String
  aliasName : String
  deriving DecidableEq

structure PackageMeta where
  name : String
  imports : List Import
  deriving DecidableEq

/-- One collected call pair. -/
structure Call where
  fromFn : String
  toFn : String
  deriving DecidableEq

/-- The AST node kinds `extractSignals` inspects (everything else is
`otherNode`). -/
inductive NodeKind where
  | goStmt
  | chanType
  | otherNode
  deriving DecidableEq

/-- The parsed file, abstracted to the node kinds the signal walk sees. -/
structure FileAst where
  nodes : List NodeKind
  deriving DecidableEq

/-- `extractSignals` (`evidence_v2.go`): the five boolean heuristics from
the import set, the call-target set, and the AST node kinds. -/
def extractSignals (meta : PackageMeta) (calls : List Call) (file : FileAst) :
    Signals :=
  let importSet := meta.imports.map (fun i => i.path)
  let callSet := calls.map (fun c => c.toFn)
  { fsReads := ["os.Open", "os.ReadFile", "ioutil.ReadFile",
      "filepath.Walk"].any (fun fn => callSet.contains fn)
    fsWrites := ["os.Create", "os.WriteFile", "os.Remove"].any
      (fun fn => callSet.contains fn)
    dbCalls := importSet.contains "database/sql" ||
      callSet.any (fun t => strContainsSub t "Query" ||
        strContainsSub t "Exec" || strContainsSub t "Scan")
    netCalls := importSet.contains "net" || importSet.contains "net/http" ||
      callSet.any (fun t => strContainsSub t "http.Client")
    concurrency := importSet.any
        (fun p => p == "sync" || strStartsWith p "sync/") ||
      file.nodes.any (fun n => n == .goStmt || n == .chanType) }

theorem any_mono {α : Type} (p : α → Bool) {l₁ l₂ : List α}
    (h : ∀ x ∈ l₁, x ∈ l₂) (ha : l₁.any p = true) : l₂.any p = true := by
  rw [List.any_eq_true] at ha ⊢
  obtain ⟨x, hx, hpx⟩ := ha
  exact ⟨x, h x hx, hpx⟩

theorem contains_mono {l₁ l₂ : List String} (x : String)
    (h : ∀ y ∈ l₁, y ∈ l₂) (hc : l₁.contains x = true) :
    l₂.contains x = true :=
  (contains_mem _ _).mpr (h x ((contains_mem _ _).mp hc))

/-- The monotonicity property C5 claims (wrapped as a definition so
instances of it are closed statements). -/
def SignalsMonotone (m₁ : PackageMeta) (c₁ : List Call) (f₁ : FileAst)
    (m₂ : PackageMeta) (c₂ : List Call) (f₂ : FileAst) : Prop :=
  ((extractSignals m₁ c₁ f₁).fsReads = true →
      (extractSignals m₂ c₂ f₂).fsReads = true) ∧
    ((extractSignals m₁ c₁ f₁).fsWrites = true →
      (extractSignals m₂ c₂ f₂).fsWrites = true) ∧
    ((extractSignals m₁ c₁ f₁).dbCalls = true →
      (extractSignals m₂ c₂ f₂).dbCalls = true) ∧
    ((extractSignals m₁ c₁ f₁).netCalls = true →
      (extractSignals m₂ c₂ f₂).netCalls = true) ∧
    ((extractSignals m₁ c₁ f₁).concurrency = true →
      (extractSignals m₂ c₂ f₂).concurrency = true)

/-- C5. Signal derivation is monotone: when the second parsed file
extends the first (import set, call-target set, and AST node kinds all
contained in the second's), no signal flips from true to false. -/
theorem extractSignals_monotone (m₁ m₂ : PackageMeta) (c₁ c₂ : List Call)
    (f₁ f₂ : FileAst)
    (himp : ∀ p ∈ m₁.imports.map (fun i => i.path),
      p ∈ m₂.imports.map (fun i => i.path))
    (hcall : ∀ t ∈ c₁.map (fun c => c.toFn), t ∈ c₂.map (fun c => c.toFn))
    (hnodes : ∀ n ∈ f₁.nodes, n ∈ f₂.nodes) :
    SignalsMonotone m₁ c₁ f₁ m₂ c₂ f₂ := by
  refine ⟨?_, ?_, ?_, ?_, ?_⟩ <;> simp only [extractSignals]
  · intro h
    rw [List.any_eq_true] at h ⊢
    obtain ⟨fn, hfn, hc⟩ := h
    exact ⟨fn, hfn, contains_mono fn hcall hc⟩
  · intro h
    rw [List.any_eq_true] at h ⊢
    obtain ⟨fn, hfn, hc⟩ := h
    exact ⟨fn, hfn, contains_mono fn hcall hc⟩
  · intro h
    rw [Bool.or_eq_true] at h ⊢
    rcases h with h | h
    · exact Or.inl (contains_mono _ himp h)
    · exact Or.inr (any_mono _ hcall h)
  · intro h
    rw [Bool.or_eq_true, Bool.or_eq_true] at h ⊢
    rcases h with (h | h) | h
    · exact Or.inl (Or.inl (contains_mono _ himp h))
    · exact Or.inl (Or.inr (contains_mono _ himp h))
    · exact Or.inr (any_mono _ hcall h)
  · intro h
    rw [Bool.or_eq_true] at h ⊢
    rcases h with h | h
    · exact Or.inl (any_mono _ himp h)
    · exact Or.inr (any_mono _ hnodes h)

/-- C5 witness: monotonicity at a concrete pair of files, the second
extending the first with a `database/sql` import and a goroutine. -/
theorem extractSignals_monotone_witness :
    SignalsMonotone
      ⟨"main", [⟨"os", ""⟩]⟩ [⟨"run", "os.Open"⟩] ⟨[.otherNode]⟩
      ⟨"main", [⟨"os", ""⟩, ⟨"database/sql", ""⟩]⟩
      [⟨"run", "os.Open"⟩, ⟨"run", "db.Query"⟩] ⟨[.otherNode, .goStmt]⟩ :=
  extractSignals_monotone _ _ _ _ _ _ (by decide) (by decide) (by decide)

end V2

/-! ## Serialized signal sections (C4)

`evidence_v2.go`'s `Signals` struct serializes with the five yaml keys of
its fields; the static plugin's `signals` struct (`analyzer.go`) with
seven. Serialization is modelled as the ordered key/value list yaml.v3
produces from the struct fields. -/

/-- The serialized form of `evidence_v2.go`'s `Signals` (yaml.v3 emits
one key per struct field, in declaration order). -/
def serializeSignalsV2 (s : Signals) : List (String × Bool) :=
  [("fs_reads", s.fsReads), ("fs_writes", s.fsWrites), ("db_calls", s.dbCalls),
   ("net_calls", s.netCalls), ("concurrency", s.concurrency)]

/-! ## The static plugin (`internal/static/analyzer.go`) -/

namespace Static

/-- The AST shapes `analyzer.go`'s signal pass distinguishes: calls with
selector functions (`x.sel(...)`), calls with identifier functions,
goroutine statements, channel types, anything else. -/
inductive Node where
  | callSel (x sel : String)
  | callIdent (name : String)
  | goStmtNode
  | chanTypeNode
  | otherNode
  deriving DecidableEq

structure FileAst where
  nodes : List Node
  deriving DecidableEq

structure ImportEntry where
  path : String
  aliasName : String
  deriving DecidableEq

structure PackageMeta where
  name : String
  imports : List ImportEntry
  deriving DecidableEq

/-- The static plugin's seven-field `signals` struct. -/
structure StaticSignals where
  fsReads : Bool
  fsWrites : Bool
  dbCalls : Bool
  netCalls : Bool
  concurrency : Bool
  yamlIo : Bool
  jsonIo : Bool
  deriving DecidableEq

/-- The serialized form of the static plugin's `signals` struct. -/
def serializeStaticSignals (s : StaticSignals) : List (String × Bool) :=
  [("fs_reads", s.fsReads), ("fs_writes", s.fsWrites), ("db_calls", s.dbCalls),
   ("net_calls", s.netCalls), ("concurrency", s.concurrency),
   ("yaml_io", s.yamlIo), ("json_io", s.jsonIo)]

/-- The call-target set `analyzer.go` builds by walking `CallExpr` nodes:
`x.sel` for selector calls with identifier receivers, bare names for
identifier calls. -/
def callSetOf (f : FileAst) : List String :=
  f.nodes.filterMap (fun n =>
    match n with
    | .callSel x sel => some (x ++ "." ++ sel)
    | .callIdent name => some name
    | _ => none)

/-- `extractSignals` (`analyzer.go`): the seven boolean heuristics. -/
def extractSignals (meta : PackageMeta) (file : FileAst) : StaticSignals :=
  let importSet := meta.imports.map (fun i => i.path)
  let callSet := callSetOf file
  { fsReads := ["os.Open", "os.ReadFile", "ioutil.ReadFile",
      "filepath.Walk"].any (fun fn => callSet.contains fn)
    fsWrites := ["os.Create", "os.WriteFile", "os.Remove"].any
      (fun fn => callSet.contains fn)
    dbCalls := importSet.contains "database/sql" ||
      callSet.any (fun t => strContainsSub t "Query" ||
        strContainsSub t "Exec" || strContainsSub t "Scan")
    netCalls := importSet.contains "net" || importSet.contains "net/http"
    concurrency := importSet.any
        (fun p => p == "sync" || strStartsWith p "sync/") ||
      file.nodes.any (fun n => n == .goStmtNode || n == .chanTypeNode)
    yamlIo := importSet.any (fun p => strContainsSub p "yaml") ||
      callSet.any (fun t => strStartsWith t "yaml.")
    jsonIo := importSet.contains "encoding/json" ||
      callSet.any (fun t => strStartsWith t "json.") }

end Static

/-- C4 counterexample: the serialized `signals` section of a v2 evidence
bundle contains exactly five booleans; `yaml_io` and `json_io` are not
among its keys. -/
theorem signals_seven_cex :
    (serializeSignalsV2 ⟨false, false, false, false, false⟩).map Prod.fst
        ≠ ["fs_reads", "fs_writes", "db_calls", "net_calls", "concurrency",
           "yaml_io", "json_io"] ∧
      "yaml_io" ∉ (serializeSignalsV2
        ⟨false, false, false, false, false⟩).map Prod.fst ∧
      "json_io" ∉ (serializeSignalsV2
        ⟨false, false, false, false, false⟩).map Prod.fst := by
  decide

/-- C4 amended: the v2 evidence bundle's signals section has exactly the
five keys fs_reads, fs_writes, db_calls, net_calls, concurrency; the
static plugin's bundle frontmatter has exactly the seven keys including
yaml_io and json_io, where yaml_io holds iff some import path contains
"yaml" or some call target begins with "yaml.", and json_io holds iff
`encoding/json` is imported or some call target begins with "json.". -/
theorem signals_fields_spec :
    (∀ s, (serializeSignalsV2 s).map Prod.fst
        = ["fs_reads", "fs_writes", "db_calls", "net_calls", "concurrency"]) ∧
      (∀ s, (Static.serializeStaticSignals s).map Prod.fst
        = ["fs_reads", "fs_writes", "db_calls", "net_calls", "concurrency",
           "yaml_io", "json_io"]) ∧
      (∀ meta file, (Static.extractSignals meta file).yamlIo = true ↔
        (∃ imp ∈ meta.imports, strContainsSub imp.path "yaml" = true) ∨
          ∃ t ∈ Static.callSetOf file, strStartsWith t "yaml." = true) ∧
      (∀ meta file, (Static.extractSignals meta file).jsonIo = true ↔
        "encoding/json" ∈ meta.imports.map (fun i => i.path) ∨
          ∃ t ∈ Static.callSetOf file, strStartsWith t "json." = true) := by
  refine ⟨fun s => rfl, fun s => rfl, ?_, ?_⟩
  · intro meta file
    simp only [Static.extractSignals, Bool.or_eq_true, List.any_eq_true,
      List.mem_map]
    constructor
    · rintro (⟨p, ⟨i, hi, rfl⟩, hp⟩ | h)
      · exact Or.inl ⟨i, hi, hp⟩
      · exact Or.inr h
    · rintro (⟨i, hi, hp⟩ | h)
      · exact Or.inl ⟨i.path, ⟨i, hi, rfl⟩, hp⟩
      · exact Or.inr h
  · intro meta file
    simp [Static.extractSignals, List.any_eq_true]

/-- C4 amended witness: the yaml_io equivalence at a concrete file. -/
theorem signals_fields_witness :
    (Static.extractSignals ⟨"main", [⟨"gopkg.in/yaml.v3", ""⟩]⟩
        ⟨[.callSel "yaml" "Marshal"]⟩).yamlIo = true ↔
      (∃ imp ∈ ([⟨"gopkg.in/yaml.v3", ""⟩] : List Static.ImportEntry),
          strContainsSub imp.path "yaml" = true) ∨
        ∃ t ∈ Static.callSetOf ⟨[.callSel "yaml" "Marshal"]⟩,
          strStartsWith t "yaml." = true :=
  signals_fields_spec.2.2.1 _ _

/-! ## Bundle writing and the skip cache (C3)

`evidence_v2.go`'s `writeBundleAt` writes the `<source>.evidence.yaml`
companion unconditionally; the static plugin's `writeBundle`
(`analyzer.go`) skips rewriting its markdown bundle when the stored
frontmatter hash equals the fresh hash. The disk is modelled as an
association list of path → (content, mtime), where the mtime is a write
counter. -/

/-- A file system snapshot: monotone clock plus path → content/mtime. -/
structure Disk (α : Type) where
  clock : Nat
  files : List (String × α × Nat)
  deriving DecidableEq

def readFile {α : Type} (d : Disk α) (p : String) : Option (α × Nat) :=
  (d.files.find? (fun f => f.1 == p)).map (fun f => f.2)

def writeFile {α : Type} (d : Disk α) (p : String) (c : α) : Disk α :=
  { clock := d.clock + 1, files := (p, c, d.clock + 1) :: d.files }

/-- `writeBundleAt` (`evidence_v2.go`): marshal the bundle and write it
to `<absFilePath>.evidence.yaml`, unconditionally. -/
def writeBundleAt (bundleYaml : String) (absFilePath : String)
    (d : Disk String) : Disk String :=
  writeFile d (absFilePath ++ ".evidence.yaml") bundleYaml

/-- A stored static-plugin bundle: the frontmatter `hash` field plus the
rest of the rendered document (not examined by the skip check). -/
structure StoredBundle where
  hash : String
  rest : String
  deriving DecidableEq

/-- `writeBundle` (`analyzer.go`): hash the source bytes; if the
existing output file's stored frontmatter hash equals the fresh hash,
return without writing; otherwise write the rebuilt bundle. `rendered`
stands for the remainder of the bundle built from the same inputs. -/
def writeBundle (src : List Nat) (rendered : String) (outFile : String)
    (d : Disk StoredBundle) : Disk StoredBundle :=
  let h := hexEncode (SHA256.sha256 src)
  match readFile d outFile with
  | some fs => if fs.1.hash = h then d else writeFile d outFile ⟨h, rendered⟩
  | none => writeFile d outFile ⟨h, rendered⟩

/-- C3 counterexample: two consecutive `writeBundleAt` calls on the same
unchanged bundle rewrite the `<source>.evidence.yaml` companion — the
second call changes its mtime (there is no skip cache and no force flag
for the companion writer). -/
theorem writeBundleAt_rewrites_cex :
    (readFile (writeBundleAt "yamlbytes" "main.go"
          (writeBundleAt "yamlbytes" "main.go" ⟨0, []⟩))
        "main.go.evidence.yaml").map (fun f => f.2)
      ≠ (readFile (writeBundleAt "yamlbytes" "main.go" ⟨0, []⟩)
          "main.go.evidence.yaml").map (fun f => f.2) := by
  decide

theorem writeBundle_hash_stored (src : List Nat) (rendered : String)
    (outFile : String) (d : Disk StoredBundle) :
    (readFile (writeBundle src rendered outFile d) outFile).map
        (fun f => f.1.hash)
      = some (hexEncode (SHA256.sha256 src)) := by
  cases hr : readFile d outFile with
  | some fs =>
      by_cases he : fs.1.hash = hexEncode (SHA256.sha256 src)
      · simp [writeBundle, hr, he]
      · simp only [writeBundle, hr, if_neg he]
        simp [readFile, writeFile]
  | none =>
      simp only [writeBundle, hr]
      simp [readFile, writeFile]

/-- C3 amended: the v2 companion writer `writeBundleAt` rewrites the
companion on every call — the file afterwards holds the fresh bytes
under a newly allocated mtime that differs from any mtime present
before (on a disk whose stored mtimes do not exceed its clock); the
static plugin's `writeBundle` leaves the disk (bytes and mtimes)
entirely untouched exactly when the stored frontmatter hash equals the
fresh source hash: a second call on an unchanged source is the
identity, a matching stored hash never writes, and a mismatching or
missing output file is (re)written with the fresh hash and content. -/
theorem writeBundle_skip_cache (src : List Nat) (rendered rendered' : String)
    (outFile : String) (d : Disk StoredBundle) :
    (∀ (y p : String) (d' : Disk String),
        (∀ f ∈ d'.files, f.2.2 ≤ d'.clock) →
        readFile (writeBundleAt y p d') (p ++ ".evidence.yaml")
            = some (y, d'.clock + 1) ∧
          (readFile d' (p ++ ".evidence.yaml")).map (fun f => f.2)
            ≠ (readFile (writeBundleAt y p d') (p ++ ".evidence.yaml")).map
                (fun f => f.2)) ∧
      (writeBundle src rendered' outFile (writeBundle src rendered outFile d)
        = writeBundle src rendered outFile d) ∧
      (∀ fs, readFile d outFile = some fs →
        fs.1.hash = hexEncode (SHA256.sha256 src) →
        writeBundle src rendered outFile d = d) ∧
      (∀ fs, readFile d outFile = some fs →
        fs.1.hash ≠ hexEncode (SHA256.sha256 src) →
        writeBundle src rendered outFile d
          = writeFile d outFile ⟨hexEncode (SHA256.sha256 src), rendered⟩) ∧
      (readFile d outFile = none →
        writeBundle src rendered outFile d
          = writeFile d outFile ⟨hexEncode (SHA256.sha256 src), rendered⟩) := by
  refine ⟨?_, ?_, ?_, ?_, ?_⟩
  · intro y p d' hwf
    have hnew : readFile (writeBundleAt y p d') (p ++ ".evidence.yaml")
        = some (y, d'.clock + 1) := by
      simp [writeBundleAt, writeFile, readFile]
    refine ⟨hnew, ?_⟩
    rw [hnew]
    cases hfind : d'.files.find?
        (fun x => x.1 == (p ++ ".evidence.yaml")) with
    | none =>
        simp [readFile, hfind]
    | some e =>
        have he : e ∈ d'.files := List.mem_of_find?_eq_some hfind
        have hle : e.2.2 ≤ d'.clock := hwf e he
        simp only [readFile, hfind, Option.map_some]
        intro hc
        have : e.2.2 = d'.clock + 1 := by
          simpa using hc
        omega
  · have hstored := writeBundle_hash_stored src rendered outFile d
    set d1 := writeBundle src rendered outFile d with hd1
    unfold writeBundle
    cases hr : readFile d1 outFile with
    | some fs =>
        rw [hr] at hstored
        have heq : fs.1.hash = hexEncode (SHA256.sha256 src) := by
          simpa using hstored
        simp [heq]
    | none =>
        rw [hr] at hstored
        cases hstored
  · intro fs hfs hhash
    simp only [writeBundle, hfs, if_pos hhash]
  · intro fs hfs hne
    simp only [writeBundle, hfs, if_neg hne]
  · intro hnone
    simp only [writeBundle, hnone]

/-- C3 amended witness: at a concrete disk, one `writeBundleAt` call
rewrites the companion with a fresh mtime, and the second `writeBundle`
call on an unchanged source is the identity. -/
theorem writeBundle_skip_cache_witness :
    readFile (writeBundleAt "y" "main.go" ⟨0, []⟩) "main.go.evidence.yaml"
        = some ("y", 1) ∧
      writeBundle [1, 2] "r2" "out.md"
          (writeBundle [1, 2] "r1" "out.md" ⟨0, []⟩)
        = writeBundle [1, 2] "r1" "out.md" ⟨0, []⟩ :=
  ⟨((writeBundle_skip_cache [1, 2] "r1" "r2" "out.md" ⟨0, []⟩).1 "y"
      "main.go" ⟨0, []⟩ (by simp)).1,
   (writeBundle_skip_cache [1, 2] "r1" "r2" "out.md" ⟨0, []⟩).2.1⟩

/-! ## Deny matcher (`settings.go`: `IsDenied`, `parseDenyRule`,
`matchDenyPattern`)

`matchDenyPattern` special-cases `prefix/**`; everything else goes to
`filepath.Match`, whose documented pattern syntax (`*` not crossing the
separator, `?`, `[...]` classes with `^` negation and ranges, `\\`
escapes, malformed patterns never matching) is embedded below as a token
parser plus a matching recursion. -/

namespace Deny

/-- One pattern term of `filepath.Match` syntax. -/
inductive GlobTok where
  | star
  | anyCh
  | cls (neg : Bool) (ranges : List (Char × Char))
  | lit (c : Char)
  deriving DecidableEq

/-- Class membership: some range contains the char, flipped under `^`. -/
def inClass (neg : Bool) (ranges : List (Char × Char)) (c : Char) : Bool :=
  let m := ranges.any (fun r => r.1 ≤ c && c ≤ r.2)
  if neg then !m else m

/-- `getEsc`: one (possibly escaped) class character; `-`, `]`, end of
pattern, and a trailing backslash are malformed. -/
def getEsc : List Char → Option (Char × List Char)
  | [] => none
  | '-' :: _ => none
  | ']' :: _ => none
  | '\\' :: [] => none
  | '\\' :: c :: r => some (c, r)
  | c :: r => some (c, r)

/-- Parse the ranges of a `[...]` class (fuel bounds the loop; every
iteration consumes at least one character). -/
def parseRanges (fuel : Nat) (t : List Char) (acc : List (Char × Char)) :
    Option (List (Char × Char) × List Char) :=
  match fuel with
  | 0 => none
  | fuel + 1 =>
      match t with
      | ']' :: r =>
          if acc ≠ [] then some (acc.reverse, r) else none
      | _ =>
          match getEsc t with
          | none => none
          | some (lo, r1) =>
              match r1 with
              | '-' :: r2 =>
                  match getEsc r2 with
                  | none => none
                  | some (hi, r3) => parseRanges fuel r3 ((lo, hi) :: acc)
              | _ => parseRanges fuel r1 ((lo, lo) :: acc)

/-- Parse a class body after `[`: optional `^`, then at least one range,
closed by `]`. -/
def parseClassBody (t : List Char) : Option (Bool × List (Char × Char) × List Char) :=
  match t with
  | '^' :: r => (parseRanges (r.length + 1) r []).map (fun x => (true, x.1, x.2))
  | _ => (parseRanges (t.length + 1) t []).map (fun x => (false, x.1, x.2))

/-- Tokenize a `filepath.Match` pattern; `none` on a malformed pattern
(`filepath.Match` reports `ErrBadPattern` and never matches those). -/
def parseGlob (fuel : Nat) (l : List Char) : Option (List GlobTok) :=
  match fuel with
  | 0 => none
  | fuel + 1 =>
      match l with
      | [] => some []
      | '*' :: t => (parseGlob fuel t).map (fun ts => .star :: ts)
      | '?' :: t => (parseGlob fuel t).map (fun ts => .anyCh :: ts)
      | '[' :: t =>
          match parseClassBody t with
          | none => none
          | some (neg, ranges, rest) =>
              (parseGlob fuel rest).map (fun ts => .cls neg ranges :: ts)
      | '\\' :: t =>
          match t with
          | [] => none
          | c :: r => (parseGlob fuel r).map (fun ts => .lit c :: ts)
      | c :: t => (parseGlob fuel t).map (fun ts => .lit c :: ts)

/-- The matcher underlying `filepath.Match`: `*` absorbs any run of
non-separator characters, `?` one non-separator character, a class one
character its ranges admit (Go's class branch has no separator check),
literals compare exactly. -/
def goMatch : List GlobTok → List Char → Bool
  | [], [] => true
  | [], _ :: _ => false
  | .star :: p, [] => goMatch p []
  | .star :: p, c :: t =>
      goMatch p (c :: t) || (decide (c ≠ '/') && goMatch (.star :: p) t)
  | .anyCh :: p, c :: t => decide (c ≠ '/') && goMatch p t
  | .anyCh :: _, [] => false
  | .cls neg ranges :: p, c :: t => inClass neg ranges c && goMatch p t
  | .cls _ _ :: _, [] => false
  | .lit a :: p, c :: t => a == c && goMatch p t
  | .lit _ :: _, [] => false
  termination_by toks s => (toks.length, s.length)

/-- Declarative single-segment glob semantics: `*` matches exactly the
splits whose absorbed run contains no `/`, `?` one non-separator
character, a class any single character its ranges admit. -/
def SpecMatch : List GlobTok → List Char → Prop
  | [], s => s = []
  | .star :: p, s =>
      ∃ t u, s = t ++ u ∧ (∀ c ∈ t, c ≠ '/') ∧ SpecMatch p u
  | .anyCh :: p, s => ∃ c t, s = c :: t ∧ c ≠ '/' ∧ SpecMatch p t
  | .cls neg ranges :: p, s =>
      ∃ c t, s = c :: t ∧ inClass neg ranges c = true ∧ SpecMatch p t
  | .lit a :: p, s => ∃ t, s = a :: t ∧ SpecMatch p t

/-- The backtracking matcher decides the declarative semantics. -/
theorem goMatch_iff (toks : List GlobTok) (s : List Char) :
    goMatch toks s = true ↔ SpecMatch toks s := by
  induction toks, s using goMatch.induct with
  | case1 => simp [goMatch, SpecMatch]
  | case2 c t => simp [goMatch, SpecMatch]
  | case3 p ih =>
      simp only [goMatch, SpecMatch, ih]
      constructor
      · intro h
        exact ⟨[], [], rfl, by simp, h⟩
      · rintro ⟨t, u, heq, _, hm⟩
        obtain ⟨rfl, rfl⟩ := List.append_eq_nil.mp heq.symm
        exact hm
  | case4 p c t ih1 ih2 =>
      simp only [goMatch, Bool.or_eq_true, Bool.and_eq_true,
        decide_eq_true_eq, ih1, ih2]
      constructor
      · rintro (h | ⟨hc, tt, u, rfl, hsl, hm⟩)
        · exact ⟨[], c :: t, rfl, by simp, h⟩
        · refine ⟨c :: tt, u, rfl, ?_, hm⟩
          intro d hd
          rcases List.mem_cons.mp hd with rfl | hd'
          · exact hc
          · exact hsl d hd'
      · rintro ⟨tt, u, heq, hsl, hm⟩
        cases tt with
        | nil =>
            simp only [List.nil_append] at heq
            exact Or.inl (heq ▸ hm)
        | cons d tt' =>
            simp only [List.cons_append, List.cons.injEq] at heq
            obtain ⟨h1, h2⟩ := heq
            subst h1
            subst h2
            refine Or.inr ⟨hsl c (List.mem_cons_self c tt'), tt', u, rfl, ?_, hm⟩
            exact fun e he => hsl e (List.mem_cons_of_mem c he)
  | case5 p c t ih =>
      simp only [goMatch, Bool.and_eq_true, decide_eq_true_eq, ih, SpecMatch]
      constructor
      · rintro ⟨hc, hm⟩
        exact ⟨c, t, rfl, hc, hm⟩
      · rintro ⟨c', t', heq, hc, hm⟩
        obtain ⟨rfl, rfl⟩ := List.cons.injEq c t c' t' ▸ heq
        exact ⟨hc, hm⟩
  | case6 p => simp [goMatch, SpecMatch]
  | case7 neg ranges p c t ih =>
      simp only [goMatch, Bool.and_eq_true, ih, SpecMatch]
      constructor
      · rintro ⟨hcls, hm⟩
        exact ⟨c, t, rfl, hcls, hm⟩
      · rintro ⟨c', t', heq, hcls, hm⟩
        obtain ⟨rfl, rfl⟩ := List.cons.injEq c t c' t' ▸ heq
        exact ⟨hcls, hm⟩
  | case8 neg ranges p => simp [goMatch, SpecMatch]
  | case9 a p c t ih =>
      simp only [goMatch, Bool.and_eq_true, beq_iff_eq, ih, SpecMatch]
      constructor
      · rintro ⟨rfl, hm⟩
        exact ⟨t, rfl, hm⟩
      · rintro ⟨t', heq, hm⟩
        obtain ⟨rfl, rfl⟩ := List.cons.injEq a t' c t ▸ heq.symm
        exact ⟨rfl, hm⟩
  | case10 a p => simp [goMatch, SpecMatch]

end Deny

/-! ## String suffix/prefix utilities mirroring the `strings` package -/

/-- `strings.HasSuffix`. -/
def strEndsWith (s suf : String) : Bool :=
  leadsWith suf.data.reverse s.data.reverse

/-- `strings.TrimSuffix`. -/
def strTrimSuffix (s suf : String) : String :=
  if strEndsWith s suf then ⟨s.data.take (s.data.length - suf.data.length)⟩
  else s

/-- `strings.TrimPrefix`. -/
def strTrimPrefix (s pre : String) : String :=
  if strStartsWith s pre then ⟨s.data.drop pre.data.length⟩ else s

/-! ## The deny matcher itself -/

structure Permissions where
  deny : List String
  deriving DecidableEq

structure Settings where
  permissions : Permissions
  deriving DecidableEq

/-- `filepath.Match` with the error swallowed (`matched, _ :=`):
malformed patterns match nothing. -/
def globMatch (pattern path : String) : Bool :=
  match Deny.parseGlob (pattern.data.length + 1) pattern.data with
  | none => false
  | some toks => Deny.goMatch toks path.data

/-- `matchDenyPattern`: `prefix/**` matches the prefix directory itself
and every path beneath it; anything else uses `filepath.Match`. -/
def matchDenyPattern (pattern path : String) : Bool :=
  if strEndsWith pattern "/**" then
    let pre := strTrimSuffix pattern "/**"
    path == pre || strStartsWith path (pre ++ "/")
  else globMatch pattern path

/-- `parseDenyRule`: strip a surrounding `Read(...)` wrapper, then a
leading `./`. -/
def parseDenyRule (rule : String) : String :=
  let r := if strStartsWith rule "Read(" && strEndsWith rule ")" then
      ⟨(rule.data.drop 5).take (rule.data.length - 6)⟩
    else rule
  strTrimPrefix r "./"

/-- `Settings.IsDenied` (nil receiver modelled as `none`). -/
def IsDenied (s : Option Settings) (relPath : String) : Bool :=
  match s with
  | none => false
  | some st => st.permissions.deny.any
      (fun rule => matchDenyPattern (parseDenyRule rule) relPath)

/-- What the spec says a deny rule denies: after stripping the wrapper
and `./`, a `prefix/**` rule denies the prefix itself and everything
under it; any other rule denies the paths of the declarative
single-segment glob semantics (malformed patterns deny nothing). -/
def DeniesSpec (rule path : String) : Prop :=
  let g := parseDenyRule rule
  if strEndsWith g "/**" then
    path = strTrimSuffix g "/**" ∨
      strStartsWith path (strTrimSuffix g "/**" ++ "/") = true
  else
    match Deny.parseGlob (g.data.length + 1) g.data with
    | none => False
    | some toks => Deny.SpecMatch toks path.data

theorem strEndsWith_append (s suf : String) : strEndsWith (s ++ suf) suf = true := by
  unfold strEndsWith
  rw [String.data_append, List.reverse_append]
  exact leadsWith_append_self _ _

theorem strTrimSuffix_append (s suf : String) : strTrimSuffix (s ++ suf) suf = s := by
  unfold strTrimSuffix
  rw [if_pos (strEndsWith_append s suf)]
  obtain ⟨sd⟩ := s
  obtain ⟨fd⟩ := suf
  simp only [String.data_append, List.length_append]
  congr 1
  rw [Nat.add_sub_cancel]
  exact List.take_left _ _

theorem strStartsWith_append (s t : String) : strStartsWith (s ++ t) s = true := by
  unfold strStartsWith
  rw [String.data_append]
  exact leadsWith_append_self _ _

theorem strTrimPrefix_append (pre s : String) : strTrimPrefix (pre ++ s) pre = s := by
  unfold strTrimPrefix
  rw [if_pos (strStartsWith_append pre s)]
  obtain ⟨pd⟩ := pre
  obtain ⟨sd⟩ := s
  simp only [String.data_append]
  congr 1
  exact List.drop_left _ _

theorem matchDenyPattern_iff (g path : String) :
    matchDenyPattern g path = true ↔
      (if strEndsWith g "/**" then
          path = strTrimSuffix g "/**" ∨
            strStartsWith path (strTrimSuffix g "/**" ++ "/") = true
        else
          match Deny.parseGlob (g.data.length + 1) g.data with
          | none => False
          | some toks => Deny.SpecMatch toks path.data) := by
  unfold matchDenyPattern
  split
  · simp [Bool.or_eq_true]
  · unfold globMatch
    cases hp : Deny.parseGlob (g.data.length + 1) g.data with
    | none => simp
    | some toks => simp [Deny.goMatch_iff]

/-- C7. The deny matcher: a nil settings document denies nothing; a path
is denied iff some rule denies it under the spec semantics (after
stripping a `Read(...)` wrapper and a leading `./`, a `prefix/**` rule
denies exactly the prefix itself and every path under it, and any other
rule denies exactly the paths of single-segment glob semantics in which
`*` does not cross `/`). -/
theorem isDenied_spec :
    (∀ path, IsDenied none path = false) ∧
      (∀ st path, IsDenied (some st) path = true ↔
        ∃ rule ∈ st.permissions.deny, DeniesSpec rule path) ∧
      (∀ g : String, parseDenyRule ("Read(./" ++ g ++ ")") = g) ∧
      (∀ pre path : String,
        matchDenyPattern (pre ++ "/**") path = true ↔
          (path = pre ∨ strStartsWith path (pre ++ "/") = true)) ∧
      (∀ pattern path : String, strEndsWith pattern "/**" = false →
        (matchDenyPattern pattern path = true ↔
          ∃ toks, Deny.parseGlob (pattern.data.length + 1) pattern.data
              = some toks ∧ Deny.SpecMatch toks path.data)) := by
  refine ⟨fun path => rfl, ?_, ?_, ?_, ?_⟩
  · intro st path
    simp only [IsDenied, List.any_eq_true]
    constructor
    · rintro ⟨rule, hr, hm⟩
      exact ⟨rule, hr, (matchDenyPattern_iff _ _).mp hm⟩
    · rintro ⟨rule, hr, hm⟩
      exact ⟨rule, hr, (matchDenyPattern_iff _ _).mpr hm⟩
  · intro g
    have hsplit : ("Read(./" ++ g ++ ")" : String) = "Read(" ++ ("./" ++ g) ++ ")" := by
      obtain ⟨gd⟩ := g
      apply congrArg String.mk
      simp [String.data_append]
    rw [hsplit]
    unfold parseDenyRule
    have hstart : strStartsWith ("Read(" ++ ("./" ++ g) ++ ")") "Read(" = true := by
      have : ("Read(" ++ ("./" ++ g) ++ ")" : String)
          = "Read(" ++ (("./" ++ g) ++ ")") := by
        obtain ⟨gd⟩ := g
        apply congrArg String.mk
        simp [String.data_append]
      rw [this]
      exact strStartsWith_append _ _
    have hend : strEndsWith ("Read(" ++ ("./" ++ g) ++ ")") ")" = true :=
      strEndsWith_append _ _
    rw [hstart, hend]
    simp only [Bool.and_self, if_pos]
    have hslice : (("Read(" ++ ("./" ++ g) ++ ")").data.drop 5).take
        (("Read(" ++ ("./" ++ g) ++ ")").data.length - 6) = ("./" ++ g).data := by
      have hdata : ("Read(" ++ ("./" ++ g) ++ ")").data
          = ("Read(" : String).data ++ (("./" ++ g).data ++ (")" : String).data) := by
        simp [String.data_append, List.append_assoc]
      rw [hdata]
      have h5 : (5 : Nat) = ("Read(" : String).data.length := rfl
      rw [h5, List.drop_left]
      have hl1 : ("Read(" : String).data.length = 5 := rfl
      have hl2 : ((")") : String).data.length = 1 := rfl
      have hlen : (("Read(" : String).data
            ++ (("./" ++ g).data ++ (")" : String).data)).length - 6
          = ("./" ++ g).data.length := by
        rw [List.length_append, List.length_append, hl1, hl2]
        omega
      rw [hlen, List.take_left]
    rw [hslice]
    exact strTrimPrefix_append "./" g
  · intro pre path
    unfold matchDenyPattern
    rw [if_pos (strEndsWith_append pre "/**"), strTrimSuffix_append pre "/**"]
    simp [Bool.or_eq_true]
  · intro pattern path hne
    unfold matchDenyPattern
    rw [if_neg (by simp [hne])]
    unfold globMatch
    cases hp : Deny.parseGlob (pattern.data.length + 1) pattern.data with
    | none => simp
    | some toks => simp [Deny.goMatch_iff]

/-- C7 witness: the S2 scenario rule denies the plugin directory. -/
theorem isDenied_spec_witness :
    IsDenied (some ⟨⟨["Read(./baml_client/**)"]⟩⟩) "baml_client/x.go" = true ↔
      ∃ rule ∈ ["Read(./baml_client/**)"], DeniesSpec rule "baml_client/x.go" :=
  isDenied_spec.2.1 ⟨⟨["Read(./baml_client/**)"]⟩⟩ "baml_client/x.go"

/-! ## The risk report and import-cycle detection (`internal/export`,
`buildRiskReport` and `findCycles`) -/

namespace Export

/-- `sanitizeFilename`: `/` and `.` become `-`, runs of `-` collapse to
one, leading/trailing `-` are trimmed. -/
def collapseDashes : List Char → List Char
  | [] => []
  | '-' :: '-' :: t => collapseDashes ('-' :: t)
  | c :: t => c :: collapseDashes t
  termination_by l => l.length

def sanitizeFilename (s : String) : String :=
  let replaced := s.data.map (fun c => if c = '/' ∨ c = '.' then '-' else c)
  let collapsed := collapseDashes replaced
  ⟨(collapsed.dropWhile (fun c => c = '-')).reverse.dropWhile
      (fun c => c = '-') |>.reverse⟩

/-- The YAML frontmatter block with sorted tags (the `frontmatter` helper
of `export.go`). -/
def frontmatterStr (tags : List String) : String :=
  "---\ntags:\n" ++
    ((Model.sortStrings tags).foldl (fun acc t => acc ++ "  - " ++ t ++ "\n") "")
    ++ "---\n\n"

/-- The DFS state of `findCycles`: color map (0 white, 1 gray, 2 black),
current path, and emitted cycle strings. -/
structure DfsState where
  color : List (String × Nat)
  path : List String
  cycles : List String
  deriving DecidableEq

/-- Color lookup (missing keys are white, Go's zero value). -/
def getColorL : List (String × Nat) → String → Nat
  | [], _ => 0
  | (m, c) :: t, n => if m == n then c else getColorL t n

/-- Split a list at the first occurrence of `node`. -/
def splitAtFirst : List String → String → Option (List String × List String)
  | [], _ => none
  | x :: t, node =>
      if x = node then some ([], t)
      else (splitAtFirst t node).map (fun r => (x :: r.1, r.2))

/-- On hitting a gray node, emit the cycle `path[i:] ++ [node]` (first
occurrence of `node` in the path), joined with " → ". -/
def emitCycle (st : DfsState) (node : String) : DfsState :=
  match splitAtFirst st.path node with
  | none => st
  | some (_, tail) =>
      { st with cycles :=
          st.cycles ++ [String.intercalate " → " ((node :: tail) ++ [node])] }

/-- The three-color DFS of `findCycles`. `g` is the adjacency function,
`names` the known package names; neighbors are visited in sorted order
and only known neighbors are followed. Fuel bounds the recursion (the
well-known-package count plus one always suffices). -/
def dfs (g : String → List String) (names : List String) :
    Nat → String → DfsState → DfsState
  | 0, _, st => st
  | fuel + 1, node, st =>
      if getColorL st.color node = 2 then st
      else if getColorL st.color node = 1 then emitCycle st node
      else
        let st1 : DfsState :=
          { color := (node, 1) :: st.color, path := st.path ++ [node],
            cycles := st.cycles }
        let st2 := (Model.sortStrings (g node)).foldl
          (fun acc nb => if names.contains nb then dfs g names fuel nb acc
            else acc) st1
        { color := (node, 2) :: st2.color, path := st2.path.dropLast,
          cycles := st2.cycles }

/-- Adjacency of the package import graph: the imports of the last
package entry with this name having a non-empty import list (Go only
inserts non-empty lists into the map, later entries overwrite). -/
def graphOf (packages : List Model.PackageEntry) (n : String) : List String :=
  ((packages.reverse.find?
      (fun p => p.name == n && !p.imports.isEmpty)).map
    (fun p => p.imports)).getD []

/-- `findCycles`: DFS over the import graph, nodes in sorted order. -/
def findCycles (packages : List Model.PackageEntry) : List String :=
  let names := (packages.map (fun p => p.name)).dedup
  let nodes := Model.sortStrings names
  let fuel := names.length + 1
  (nodes.foldl
    (fun st node => if getColorL st.color node = 0 then
        dfs (graphOf packages) names fuel node st
      else st)
    ⟨[], [], []⟩).cycles

/-- The "Import Cycles" section of risk.md. -/
def importCyclesSection (packages : List Model.PackageEntry) : String :=
  let cycles := findCycles packages
  "## Import Cycles\n\n" ++
    (if cycles.isEmpty then "_None found._\n"
     else cycles.foldl (fun acc c => acc ++ "- " ++ c ++ "\n") "")

/-- The in-degree section of risk.md. -/
def inDegreeSection (packages : List Model.PackageEntry) : String :=
  let allImports := packages.bind (fun p => p.imports)
  let names := allImports.dedup
  let counts := names.map (fun n => (n, allImports.count n))
  let sorted := List.insertionSort
    (fun a b : String × Nat => b.2 < a.2 ∨ (a.2 = b.2 ∧ a.1 ≤ b.1)) counts
  let top := sorted.take 10
  "## Top Packages by In-Degree\n\n" ++
    (if top.isEmpty then "" else
      "| Package | Dependents |\n|---------|------------|\n" ++
        top.foldl (fun acc pc =>
          acc ++ "| " ++ pc.1 ++ " | " ++ toString pc.2 ++ " |\n") "")
    ++ "\n"

/-- The write-effects section of risk.md. -/
def writeDomainsSection (effects : List Model.Effect) : String :=
  let writeEffects := effects.filter
    (fun e => (e.kind == "fs_write" || e.kind == "db_write") && e.domain != "")
  let ids := Model.sortStrings ((writeEffects.map (fun e => e.domain)).dedup)
  "## Domains with Write Effects\n\n" ++
    (if ids.isEmpty then "" else
      "| Domain | Writers |\n|--------|----------|\n" ++
        ids.foldl (fun acc id =>
          let writers := String.intercalate ", "
            ((writeEffects.filter (fun e => e.domain == id)).map (fun e => e.via))
          acc ++ "| [[domains/" ++ sanitizeFilename id ++ "|" ++ id ++ "]] | "
            ++ writers ++ " |\n") "")
    ++ "\n"

/-- `buildRiskReport`: frontmatter, heading, in-degree table, write
domains, import cycles. -/
def buildRiskReport (sys : Model.SystemModel) : String :=
  frontmatterStr ["iguana/risk"] ++ "# Risk Report\n\n" ++
    inDegreeSection sys.inventory.packages ++
    writeDomainsSection sys.effects ++
    importCyclesSection sys.inventory.packages

/-! ### DFS invariants -/

theorem getColorL_cons_self (cl : List (String × Nat)) (n : String) (c : Nat) :
    getColorL ((n, c) :: cl) n = c := by simp [getColorL]

theorem getColorL_cons_ne (cl : List (String × Nat)) (m n : String) (c : Nat)
    (h : m ≠ n) : getColorL ((m, c) :: cl) n = getColorL cl n := by
  simp [getColorL, h]

theorem foldl_inv {α : Type} (f : DfsState → α → DfsState)
    (P : DfsState → Prop) (l : List α) (st : DfsState) (hst : P st)
    (hstep : ∀ acc x, P acc → P (f acc x)) : P (l.foldl f st) := by
  induction l generalizing st with
  | nil => exact hst
  | cons x t ih => exact ih (f st x) (hstep st x hst)

/-- The basic postconditions of one `dfs` call: the path is restored,
gray and black nodes keep their colors, cycles only grow, and no node
becomes white. -/
theorem dfs_post (g : String → List String) (names : List String) :
    ∀ fuel node st,
      ((dfs g names fuel node st).path = st.path) ∧
      (∀ n, getColorL st.color n = 1 →
        getColorL (dfs g names fuel node st).color n = 1) ∧
      (∀ n, getColorL st.color n = 2 →
        getColorL (dfs g names fuel node st).color n = 2) ∧
      (∃ suf, (dfs g names fuel node st).cycles = st.cycles ++ suf) ∧
      (∀ n, getColorL (dfs g names fuel node st).color n = 0 →
        getColorL st.color n = 0) := by
  intro fuel
  induction fuel with
  | zero =>
      intro node st
      exact ⟨rfl, fun n h => h, fun n h => h, ⟨[], by simp [dfs]⟩, fun n h => h⟩
  | succ f ih =>
      intro node st
      by_cases h2 : getColorL st.color node = 2
      · simp only [dfs, if_pos h2]
        exact ⟨by simp, fun n h => h, fun n h => h, ⟨[], by simp⟩, fun n h => h⟩
      · by_cases h1 : getColorL st.color node = 1
        · simp only [dfs, if_neg h2, if_pos h1]
          unfold emitCycle
          cases hsp : splitAtFirst st.path node with
          | none =>
              simp only [hsp]
              exact ⟨by simp, fun n h => h, fun n h => h, ⟨[], by simp⟩,
                fun n h => h⟩
          | some pr =>
              simp only [hsp]
              exact ⟨by simp, fun n h => h, fun n h => h, ⟨_, rfl⟩,
                fun n h => h⟩
        · -- white branch
          simp only [dfs, if_neg h2, if_neg h1]
          set st1 : DfsState :=
            { color := (node, 1) :: st.color, path := st.path ++ [node],
              cycles := st.cycles } with hst1
          set st2 := (Model.sortStrings (g node)).foldl
            (fun acc nb => if names.contains nb then dfs g names f nb acc
              else acc) st1 with hst2
          have hfold :
              (st2.path = st1.path) ∧
              (∀ n, getColorL st1.color n = 1 → getColorL st2.color n = 1) ∧
              (∀ n, getColorL st1.color n = 2 → getColorL st2.color n = 2) ∧
              (∃ suf, st2.cycles = st1.cycles ++ suf) ∧
              (∀ n, getColorL st2.color n = 0 →
                getColorL st1.color n = 0) := by
            rw [hst2]
            apply foldl_inv _
              (fun acc => (acc.path = st1.path) ∧
                (∀ n, getColorL st1.color n = 1 → getColorL acc.color n = 1) ∧
                (∀ n, getColorL st1.color n = 2 → getColorL acc.color n = 2) ∧
                (∃ suf, acc.cycles = st1.cycles ++ suf) ∧
                (∀ n, getColorL acc.color n = 0 →
                  getColorL st1.color n = 0))
            · exact ⟨rfl, fun n h => h, fun n h => h, ⟨[], by simp⟩,
                fun n h => h⟩
            · intro acc nb hacc
              by_cases hk : names.contains nb
              · simp only [if_pos hk]
                obtain ⟨hp, hg, hb, ⟨suf, hcy⟩, hw⟩ := hacc
                obtain ⟨hp', hg', hb', ⟨suf', hcy'⟩, hw'⟩ := ih nb acc
                exact ⟨hp' ▸ hp, fun n hn => hg' n (hg n hn),
                  fun n hn => hb' n (hb n hn),
                  ⟨suf ++ suf', by rw [hcy', hcy, List.append_assoc]⟩,
                  fun n h => hw n (hw' n h)⟩
              · simp only [if_neg hk]
                exact hacc
          obtain ⟨hp2, hg2, hb2, ⟨suf, hcy2⟩, hw2⟩ := hfold
          refine ⟨?_, ?_, ?_, ?_, ?_⟩
          · show st2.path.dropLast = st.path
            rw [hp2, hst1]
            simp
          · intro n hn
            have hne : node ≠ n := fun heq => h1 (heq ▸ hn)
            show getColorL ((node, 2) :: st2.color) n = 1
            rw [getColorL_cons_ne _ _ _ _ hne]
            apply hg2
            rw [hst1, getColorL_cons_ne _ _ _ _ hne]
            exact hn
          · intro n hn
            have hne : node ≠ n := fun heq => h2 (heq ▸ hn)
            show getColorL ((node, 2) :: st2.color) n = 2
            rw [getColorL_cons_ne _ _ _ _ hne]
            apply hb2
            rw [hst1, getColorL_cons_ne _ _ _ _ hne]
            exact hn
          · exact ⟨suf, by
              show st2.cycles = st.cycles ++ suf
              rw [hcy2, hst1]⟩
          · intro n hn
            have hne : node ≠ n := by
              intro heq
              subst heq
              have h2' : getColorL ((node, 2) :: st2.color) node = 2 :=
                getColorL_cons_self _ _ _
              omega
            have hn' : getColorL ((node, 2) :: st2.color) n = 0 := hn
            rw [getColorL_cons_ne _ _ _ _ hne] at hn'
            have := hw2 n hn'
            rw [hst1, getColorL_cons_ne _ _ _ _ hne] at this
            exact this

/-- Membership-aware fold invariant. -/
theorem foldl_inv_mem {α : Type} (f : DfsState → α → DfsState)
    (P : DfsState → Prop) (l : List α) (st : DfsState) (hst : P st)
    (hstep : ∀ acc x, x ∈ l → P acc → P (f acc x)) : P (l.foldl f st) := by
  induction l generalizing st with
  | nil => exact hst
  | cons x t ih =>
      exact ih (f st x) (hstep st x (List.mem_cons_self x t) hst)
        (fun acc y hy hacc => hstep acc y (List.mem_cons_of_mem x hy) hacc)

/-- The postconditions of the neighbor fold inside `dfs`'s white branch. -/
theorem dfs_fold_post (g : String → List String) (names : List String)
    (f : Nat) (l : List String) (st0 : DfsState) :
    (((l.foldl (fun acc nb => if names.contains nb then dfs g names f nb acc
        else acc) st0)).path = st0.path) ∧
      (∀ n, getColorL st0.color n = 1 →
        getColorL ((l.foldl (fun acc nb => if names.contains nb then
          dfs g names f nb acc else acc) st0)).color n = 1) ∧
      (∀ n, getColorL st0.color n = 2 →
        getColorL ((l.foldl (fun acc nb => if names.contains nb then
          dfs g names f nb acc else acc) st0)).color n = 2) ∧
      (∃ suf, ((l.foldl (fun acc nb => if names.contains nb then
          dfs g names f nb acc else acc) st0)).cycles = st0.cycles ++ suf) ∧
      (∀ n, getColorL ((l.foldl (fun acc nb => if names.contains nb then
          dfs g names f nb acc else acc) st0)).color n = 0 →
        getColorL st0.color n = 0) := by
  apply foldl_inv _
    (fun acc => (acc.path = st0.path) ∧
      (∀ n, getColorL st0.color n = 1 → getColorL acc.color n = 1) ∧
      (∀ n, getColorL st0.color n = 2 → getColorL acc.color n = 2) ∧
      (∃ suf, acc.cycles = st0.cycles ++ suf) ∧
      (∀ n, getColorL acc.color n = 0 → getColorL st0.color n = 0))
  · exact ⟨rfl, fun n h => h, fun n h => h, ⟨[], by simp⟩, fun n h => h⟩
  · intro acc nb hacc
    by_cases hk : names.contains nb
    · simp only [if_pos hk]
      obtain ⟨hp, hg, hb, ⟨suf, hcy⟩, hw⟩ := hacc
      obtain ⟨hp', hg', hb', ⟨suf', hcy'⟩, hw'⟩ := dfs_post g names f nb acc
      exact ⟨hp' ▸ hp, fun n hn => hg' n (hg n hn),
        fun n hn => hb' n (hb n hn),
        ⟨suf ++ suf', by rw [hcy', hcy, List.append_assoc]⟩,
        fun n h => hw n (hw' n h)⟩
    · simp only [if_neg hk]
      exact hacc

/-- The gray/path correspondence: a node is gray iff it is on the path. -/
def WFg (st : DfsState) : Prop :=
  ∀ n, getColorL st.color n = 1 ↔ n ∈ st.path

theorem dfs_WF (g : String → List String) (names : List String) :
    ∀ fuel node st, WFg st → WFg (dfs g names fuel node st) := by
  intro fuel
  induction fuel with
  | zero => exact fun node st h => h
  | succ f ih =>
      intro node st hWF
      by_cases h2 : getColorL st.color node = 2
      · simpa only [dfs, if_pos h2] using hWF
      · by_cases h1 : getColorL st.color node = 1
        · simp only [dfs, if_neg h2, if_pos h1]
          unfold emitCycle
          cases hsp : splitAtFirst st.path node with
          | none => exact hWF
          | some pr => exact hWF
        · simp only [dfs, if_neg h2, if_neg h1]
          set st1 : DfsState :=
            { color := (node, 1) :: st.color, path := st.path ++ [node],
              cycles := st.cycles } with hst1
          have hWF1 : WFg st1 := by
            intro n
            by_cases hn : node = n
            · subst hn
              rw [hst1]
              simp [getColorL_cons_self]
            · rw [hst1]
              show getColorL ((node, 1) :: st.color) n = 1 ↔
                n ∈ st.path ++ [node]
              rw [getColorL_cons_ne _ _ _ _ hn, hWF n]
              simp [List.mem_append, Ne.symm hn]
          set st2 := (Model.sortStrings (g node)).foldl
            (fun acc nb => if names.contains nb then dfs g names f nb acc
              else acc) st1 with hst2
          have hWF2 : WFg st2 := by
            rw [hst2]
            apply foldl_inv _ WFg _ _ hWF1
            intro acc nb hacc
            by_cases hk : names.contains nb
            · simp only [if_pos hk]
              exact ih nb acc hacc
            · simpa only [if_neg hk] using hacc
          have hp2 : st2.path = st1.path := by
            rw [hst2]
            exact (dfs_fold_post g names f _ st1).1
          intro n
          by_cases hn : node = n
          · subst hn
            show getColorL ((node, 2) :: st2.color) node = 1 ↔
              node ∈ st2.path.dropLast
            rw [getColorL_cons_self]
            have : node ∉ st.path := fun hmem => h1 ((hWF node).mpr hmem)
            rw [hp2, hst1]
            simp [this]
          · show getColorL ((node, 2) :: st2.color) n = 1 ↔
              n ∈ st2.path.dropLast
            rw [getColorL_cons_ne _ _ _ _ hn, hWF2 n, hp2, hst1]
            simp [List.mem_append, Ne.symm hn]

/-- The number of white known nodes (bounds the recursion depth). -/
def whiteCount (names : List String) (cl : List (String × Nat)) : Nat :=
  (names.filter (fun n => getColorL cl n == 0)).length

theorem filter_length_mono {α : Type} (l : List α) (p q : α → Bool)
    (h : ∀ x ∈ l, q x = true → p x = true) :
    (l.filter q).length ≤ (l.filter p).length := by
  induction l with
  | nil => exact Nat.le_refl _
  | cons x t ih =>
      have ht := ih (fun y hy => h y (List.mem_cons_of_mem x hy))
      by_cases hq : q x = true
      · rw [List.filter_cons_of_pos hq,
          List.filter_cons_of_pos (h x (List.mem_cons_self x t) hq)]
        exact Nat.succ_le_succ ht
      · rw [List.filter_cons_of_neg (by simpa using hq)]
        by_cases hp : p x = true
        · rw [List.filter_cons_of_pos hp]
          exact Nat.le_succ_of_le ht
        · rw [List.filter_cons_of_neg (by simpa using hp)]
          exact ht

theorem filter_length_strict {α : Type} [DecidableEq α] (l : List α)
    (p q : α → Bool) (x : α) (hx : x ∈ l) (hpx : p x = true)
    (hqx : q x = false) (h : ∀ y ∈ l, q y = true → p y = true) :
    (l.filter q).length < (l.filter p).length := by
  induction l with
  | nil => cases hx
  | cons a t ih =>
      by_cases hax : a = x
      · subst hax
        rw [List.filter_cons_of_pos hpx, List.filter_cons_of_neg (by simp [hqx])]
        exact Nat.lt_succ_of_le
          (filter_length_mono t p q (fun y hy => h y (List.mem_cons_of_mem a hy)))
      · have hx' : x ∈ t := (List.mem_cons.mp hx).resolve_left
          (fun he => hax he.symm)
        have ht := ih hx' (fun y hy => h y (List.mem_cons_of_mem a hy))
        by_cases hq : q a = true
        · rw [List.filter_cons_of_pos hq,
            List.filter_cons_of_pos (h a (List.mem_cons_self a t) hq)]
          exact Nat.succ_lt_succ ht
        · rw [List.filter_cons_of_neg (by simpa using hq)]
          by_cases hp : p a = true
          · rw [List.filter_cons_of_pos hp]
            exact Nat.lt_succ_of_lt ht
          · rw [List.filter_cons_of_neg (by simpa using hp)]
            exact ht

theorem whiteCount_le (names : List String) (cl : List (String × Nat)) :
    whiteCount names cl ≤ names.length :=
  List.length_filter_le _ _

theorem whiteCount_mono_dfs (g : String → List String) (names : List String)
    (fuel : Nat) (node : String) (st : DfsState) :
    whiteCount names (dfs g names fuel node st).color
      ≤ whiteCount names st.color := by
  apply filter_length_mono
  intro x _ hx
  have hw := (dfs_post g names fuel node st).2.2.2.2 x (by simpa using hx)
  simpa using hw

theorem whiteCount_mono_fold (g : String → List String) (names : List String)
    (f : Nat) (l : List String) (st0 : DfsState) :
    whiteCount names ((l.foldl (fun acc nb => if names.contains nb then
        dfs g names f nb acc else acc) st0)).color
      ≤ whiteCount names st0.color := by
  apply filter_length_mono
  intro x _ hx
  have hw := (dfs_fold_post g names f l st0).2.2.2.2 x (by simpa using hx)
  simpa using hw

theorem whiteCount_push (names : List String) (st : DfsState) (node : String)
    (hmem : node ∈ names) (hwhite : getColorL st.color node = 0) :
    whiteCount names ((node, 1) :: st.color) < whiteCount names st.color := by
  apply filter_length_strict _ _ _ node hmem
  · simpa using hwhite
  · simp [getColorL_cons_self]
  · intro y _ hy
    by_cases hyn : node = y
    · subst hyn
      simp [getColorL_cons_self] at hy
    · rw [getColorL_cons_ne _ _ _ _ hyn] at hy
      exact hy

/-! ### Soundness: an acyclic import graph yields no cycle strings -/

/-- The known-package import edge relation the DFS follows. -/
def EdgeK (g : String → List String) (names : List String)
    (u v : String) : Prop :=
  v ∈ g u ∧ v ∈ names

/-- Existence of a non-empty closed walk in the known import graph. -/
def HasCycleG (g : String → List String) (names : List String) : Prop :=
  ∃ v l, List.Chain (EdgeK g names) v l ∧ l.getLast? = some v

theorem splitAtFirst_some (p : List String) (node : String) (h : node ∈ p) :
    ∃ pre tail, splitAtFirst p node = some (pre, tail) ∧
      p = pre ++ node :: tail := by
  induction p with
  | nil => cases h
  | cons x t ih =>
      by_cases hx : x = node
      · subst hx
        exact ⟨[], t, by simp [splitAtFirst], rfl⟩
      · have ht : node ∈ t := (List.mem_cons.mp h).resolve_left
          (fun he => hx he.symm)
        obtain ⟨pre, tail, hsp, heq⟩ := ih ht
        exact ⟨x :: pre, tail, by simp [splitAtFirst, hx, hsp], by
          rw [heq]; rfl⟩

theorem chain_snoc {α : Type} {R : α → α → Prop} :
    ∀ (a : α) (l : List α) (b u : α), List.Chain R a l →
      (a :: l).getLast? = some u → R u b → List.Chain R a (l ++ [b]) := by
  intro a l
  induction l generalizing a with
  | nil =>
      intro b u _ hlast hR
      simp only [List.getLast?_singleton, Option.some.injEq] at hlast
      subst hlast
      exact List.Chain.cons hR List.Chain.nil
  | cons c t ih =>
      intro b u hchain hlast hR
      cases hchain with
      | cons hac hct =>
          refine List.Chain.cons hac (ih c b u hct ?_ hR)
          rw [← hlast]
          rfl

theorem dfs_sound (g : String → List String) (names : List String)
    (hacyc : ¬ HasCycleG g names) :
    ∀ fuel node st, WFg st → List.Chain' (EdgeK g names) st.path →
      (st.path = [] ∨ ∃ u, st.path.getLast? = some u ∧ EdgeK g names u node) →
      st.cycles = [] →
      (dfs g names fuel node st).cycles = [] := by
  intro fuel
  induction fuel with
  | zero => exact fun node st _ _ _ h => h
  | succ f ih =>
      intro node st hWF hchain hpre hcyc
      by_cases h2 : getColorL st.color node = 2
      · simpa only [dfs, if_pos h2] using hcyc
      · by_cases h1 : getColorL st.color node = 1
        · -- a gray hit under acyclicity is impossible
          exfalso
          have hmem : node ∈ st.path := (hWF node).mp h1
          obtain ⟨pre, tail, _, heq⟩ := splitAtFirst_some st.path node hmem
          rcases hpre with hnil | ⟨u, hlast, hedge⟩
          · rw [hnil] at hmem; cases hmem
          · apply hacyc
            refine ⟨node, tail ++ [node], ?_, ?_⟩
            · have hch : List.Chain (EdgeK g names) node tail := by
                have := hchain
                rw [heq] at this
                have h3 := (List.chain'_append.mp this).2.1
                exact h3
              apply chain_snoc node tail node u hch _ hedge
              rw [← hlast, heq, List.getLast?_append_of_ne_nil pre (by simp)]
            · exact List.getLast?_concat _
        · simp only [dfs, if_neg h2, if_neg h1]
          set st1 : DfsState :=
            { color := (node, 1) :: st.color, path := st.path ++ [node],
              cycles := st.cycles } with hst1
          have hWF1 : WFg st1 := by
            intro n
            by_cases hn : node = n
            · subst hn
              rw [hst1]
              simp [getColorL_cons_self]
            · rw [hst1]
              show getColorL ((node, 1) :: st.color) n = 1 ↔
                n ∈ st.path ++ [node]
              rw [getColorL_cons_ne _ _ _ _ hn, hWF n]
              simp [List.mem_append, Ne.symm hn]
          have hchain1 : List.Chain' (EdgeK g names) st1.path := by
            rw [hst1]
            show List.Chain' (EdgeK g names) (st.path ++ [node])
            rw [List.chain'_append]
            refine ⟨hchain, by simp, ?_⟩
            intro x hx y hy
            simp only [List.head?_cons, Option.mem_def, Option.some.injEq] at hy
            subst hy
            rcases hpre with hnil | ⟨u, hlast, hedge⟩
            · rw [hnil] at hx; simp at hx
            · rw [hlast] at hx
              simp only [Option.mem_def, Option.some.injEq] at hx
              subst hx
              exact hedge
          have hfold : ∀ (l : List String) (acc : DfsState),
              acc.cycles = [] → WFg acc →
              acc.path = st1.path → (∀ nb ∈ l, nb ∈ g node) →
              ((l.foldl (fun acc nb => if names.contains nb then
                  dfs g names f nb acc else acc) acc)).cycles = [] := by
            intro l
            induction l with
            | nil => intro acc h _ _ _; exact h
            | cons nb t iht =>
                intro acc hc hW hp hsub
                simp only [List.foldl_cons]
                by_cases hk : names.contains nb
                · simp only [if_pos hk]
                  apply iht
                  · apply ih nb acc hW _ _ hc
                    · rw [hp]; exact hchain1
                    · right
                      refine ⟨node, ?_, ?_⟩
                      · rw [hp, hst1]
                        show (st.path ++ [node]).getLast? = some node
                        exact List.getLast?_concat _
                      · exact ⟨hsub nb (List.mem_cons_self nb t),
                          (contains_mem _ _).mp hk⟩
                  · exact dfs_WF g names f nb acc hW
                  · rw [(dfs_post g names f nb acc).1, hp]
                  · exact fun x hx => hsub x (List.mem_cons_of_mem nb hx)
                · simp only [if_neg hk]
                  exact iht acc hc hW hp
                    (fun x hx => hsub x (List.mem_cons_of_mem nb hx))
          show ((Model.sortStrings (g node)).foldl _ st1).cycles = []
          apply hfold _ st1 _ hWF1 rfl
          · intro nb hnb
            exact (List.perm_insertionSort _ _).subset hnb
          · rw [hst1]; exact hcyc

/-- Soundness of `findCycles`: an acyclic known-import graph produces no
cycle strings. -/
theorem findCycles_sound (packages : List Model.PackageEntry)
    (hacyc : ¬ HasCycleG (graphOf packages)
      ((packages.map (fun p => p.name)).dedup)) :
    findCycles packages = [] := by
  unfold findCycles
  have hinv := foldl_inv
    (fun st node => if getColorL st.color node = 0 then
      dfs (graphOf packages) ((packages.map (fun p => p.name)).dedup)
        (((packages.map (fun p => p.name)).dedup).length + 1) node st
      else st)
    (fun st => st.cycles = [] ∧ WFg st ∧ st.path = [])
    (Model.sortStrings ((packages.map (fun p => p.name)).dedup))
    ⟨[], [], []⟩
    ⟨rfl, fun n => by simp [getColorL], rfl⟩
    ?_
  · exact hinv.1
  · intro acc node hacc
    obtain ⟨hc, hW, hp⟩ := hacc
    by_cases h0 : getColorL acc.color node = 0
    · simp only [if_pos h0]
      refine ⟨?_, ?_, ?_⟩
      · apply dfs_sound _ _ hacyc _ _ _ hW _ _ hc
        · rw [hp]; exact trivial
        · exact Or.inl hp
      · exact dfs_WF _ _ _ _ _ hW
      · rw [(dfs_post _ _ _ _ _).1, hp]
    · simp only [if_neg h0]
      exact ⟨hc, hW, hp⟩

/-! ### Completeness: a mutual import produces a reported cycle line -/

theorem emitCycle_color (st : DfsState) (node : String) :
    (emitCycle st node).color = st.color := by
  unfold emitCycle
  cases splitAtFirst st.path node with
  | none => rfl
  | some pr => rfl

theorem emitCycle_cycles (st : DfsState) (node : String) :
    ∃ suf, (emitCycle st node).cycles = st.cycles ++ suf := by
  unfold emitCycle
  cases splitAtFirst st.path node with
  | none => exact ⟨[], by simp⟩
  | some pr => exact ⟨_, rfl⟩

/-- All stored colors are at most 2 (`findCycles` only ever writes 1
and 2; missing keys read as 0). -/
def WFc (cl : List (String × Nat)) : Prop :=
  ∀ n, getColorL cl n ≤ 2

theorem WFc_push (cl : List (String × Nat)) (m : String) (c : Nat)
    (hc : c ≤ 2) (h : WFc cl) : WFc ((m, c) :: cl) := by
  intro n
  by_cases hm : m = n
  · subst hm
    rw [getColorL_cons_self]
    exact hc
  · rw [getColorL_cons_ne _ _ _ _ hm]
    exact h n

theorem dfs_WFc (g : String → List String) (names : List String) :
    ∀ fuel node st, WFc st.color → WFc (dfs g names fuel node st).color := by
  intro fuel
  induction fuel with
  | zero => exact fun _ _ h => h
  | succ f ih =>
      intro node st hWc
      by_cases h2 : getColorL st.color node = 2
      · simpa only [dfs, if_pos h2] using hWc
      · by_cases h1 : getColorL st.color node = 1
        · simp only [dfs, if_neg h2, if_pos h1]
          rw [emitCycle_color]
          exact hWc
        · simp only [dfs, if_neg h2, if_neg h1]
          apply WFc_push _ _ _ (by omega)
          apply foldl_inv _ (fun acc => WFc acc.color)
          · exact WFc_push _ _ _ (by omega) hWc
          · intro acc nb hacc
            by_cases hk : names.contains nb
            · simp only [if_pos hk]
              exact ih nb acc hacc
            · simpa only [if_neg hk] using hacc

theorem whiteCount_pos (names : List String) (cl : List (String × Nat))
    (n : String) (hn : n ∈ names) (h0 : getColorL cl n = 0) :
    0 < whiteCount names cl :=
  List.length_pos.mpr
    (List.ne_nil_of_mem (List.mem_filter.mpr ⟨hn, by simp [h0]⟩))

/-- A cycle line joining package names with " → " that starts and ends
with the same package and mentions both `a` and `b` has been emitted. -/
def DoneAB (a b : String) (st : DfsState) : Prop :=
  ∃ l : List String, l ≠ [] ∧ l.head? = l.getLast? ∧ a ∈ l ∧ b ∈ l ∧
    String.intercalate " → " l ∈ st.cycles

theorem DoneAB_mono (a b : String) (st st' : DfsState)
    (h : ∃ suf, st'.cycles = st.cycles ++ suf) :
    DoneAB a b st → DoneAB a b st' := by
  obtain ⟨suf, hs⟩ := h
  rintro ⟨l, h1, h2, h3, h4, h5⟩
  exact ⟨l, h1, h2, h3, h4, by rw [hs]; exact List.mem_append_left _ h5⟩

theorem DoneAB_swap (a b : String) (st : DfsState) :
    DoneAB a b st → DoneAB b a st := by
  rintro ⟨l, h1, h2, h3, h4, h5⟩
  exact ⟨l, h1, h2, h4, h3, h5⟩

theorem mem_tail_of_getLast? (pre tail : List String) (x y : String)
    (h : (pre ++ x :: tail).getLast? = some y) (hxy : x ≠ y) : y ∈ tail := by
  rw [List.getLast?_append_of_ne_nil pre (by simp)] at h
  rcases List.mem_cons.mp (List.mem_of_mem_getLast? h) with he | hm
  · exact absurd he.symm hxy
  · exact hm

/-- While `a` sits gray on the path, expanding a white `b` with
`a ∈ g b` emits a cycle line through both `a` and `b`: the neighbor
fold of `b` reaches `a`, hits the gray branch, and `emitCycle` cuts the
path at `a`, whose suffix ends with the freshly pushed `b`. -/
theorem dfs_prod (g : String → List String) (names : List String)
    (a b : String) (hab : a ≠ b) (hba : a ∈ g b) (han : a ∈ names)
    (f : Nat) (hf : 1 ≤ f) (st : DfsState)
    (hb2 : getColorL st.color b ≠ 2) (hb1 : getColorL st.color b ≠ 1)
    (hag : getColorL st.color a = 1) (hap : a ∈ st.path) :
    DoneAB a b (dfs g names (f + 1) b st) := by
  simp only [dfs, if_neg hb2, if_neg hb1]
  set st1 : DfsState :=
    { color := (b, 1) :: st.color, path := st.path ++ [b],
      cycles := st.cycles } with hst1
  obtain ⟨l1, l2, hsplit⟩ := List.append_of_mem (Model.mem_sortStrings.mpr hba)
  have hdone2 : DoneAB a b ((Model.sortStrings (g b)).foldl
      (fun acc nb => if names.contains nb then dfs g names f nb acc
        else acc) st1) := by
    rw [hsplit]
    simp only [List.foldl_append, List.foldl_cons]
    have hpost := dfs_fold_post g names f l1 st1
    set acc1 := l1.foldl
      (fun acc nb => if names.contains nb then dfs g names f nb acc
        else acc) st1 with hacc1
    have hpath1 : acc1.path = st.path ++ [b] := by
      rw [hpost.1, hst1]
    have hga : getColorL acc1.color a = 1 := by
      apply hpost.2.1
      rw [hst1]
      show getColorL ((b, 1) :: st.color) a = 1
      rw [getColorL_cons_ne _ _ _ _ (Ne.symm hab)]
      exact hag
    have hka : names.contains a = true := (contains_mem names a).mpr han
    obtain ⟨f', hfe⟩ : ∃ f', f = f' + 1 := ⟨f - 1, by omega⟩
    subst hfe
    have hmem : a ∈ acc1.path := by
      rw [hpath1]
      exact List.mem_append_left _ hap
    obtain ⟨pre, tail, hsp, heq⟩ := splitAtFirst_some acc1.path a hmem
    have hstep : (if names.contains a then dfs g names (f' + 1) a acc1
        else acc1) =
        { acc1 with cycles := acc1.cycles ++
            [String.intercalate " → " ((a :: tail) ++ [a])] } := by
      rw [if_pos hka]
      have h2' : ¬ getColorL acc1.color a = 2 := by rw [hga]; omega
      simp only [dfs, if_neg h2', if_pos hga, emitCycle, hsp]
    rw [hstep]
    apply DoneAB_mono a b _ _ (dfs_fold_post g names (f' + 1) l2 _).2.2.2.1
    refine ⟨(a :: tail) ++ [a], by simp, ?_, ?_, ?_, ?_⟩
    · rw [List.getLast?_concat]
      rfl
    · exact List.mem_append_left _ (List.mem_cons_self a tail)
    · have hlastp : (pre ++ a :: tail).getLast? = some b := by
        rw [← heq, hpath1]
        exact List.getLast?_concat _
      exact List.mem_append_left _
        (List.mem_cons_of_mem a (mem_tail_of_getLast? pre tail a b hlastp hab))
    · exact List.mem_append_right _ (by simp)
  exact DoneAB_mono a b _ _ ⟨[], by simp⟩ hdone2

/-- Gray/path correspondence survives pushing a fresh gray node. -/
theorem WFg_push (st : DfsState) (node : String) (hWF : WFg st) :
    WFg { color := (node, 1) :: st.color, path := st.path ++ [node],
          cycles := st.cycles } := by
  intro n
  by_cases hn : node = n
  · subst hn
    show getColorL ((node, 1) :: st.color) node = 1 ↔
      node ∈ st.path ++ [node]
    simp [getColorL_cons_self]
  · show getColorL ((node, 1) :: st.color) n = 1 ↔ n ∈ st.path ++ [node]
    rw [getColorL_cons_ne _ _ _ _ hn, hWF n]
    simp [List.mem_append, Ne.symm hn]

/-- While `a` is gray on the path and `a ∈ g b`, no call whatsoever can
blacken `b` before a qualifying cycle line has been emitted. -/
theorem dfs_aux (g : String → List String) (names : List String)
    (a b : String) (hab : a ≠ b) (hba : a ∈ g b) (han : a ∈ names)
    (hbn : b ∈ names) :
    ∀ fuel node st, node ∈ names →
      getColorL st.color a = 1 → WFg st → WFc st.color →
      whiteCount names st.color < fuel →
      (DoneAB a b st ∨ getColorL st.color b ≠ 2) →
      (DoneAB a b (dfs g names fuel node st) ∨
        getColorL (dfs g names fuel node st).color b ≠ 2) := by
  intro fuel
  induction fuel with
  | zero =>
      intro node st _ _ _ _ hwc _
      omega
  | succ f ih =>
      intro node st hnn hag hWF hWc hwc hC
      by_cases h2 : getColorL st.color node = 2
      · simpa only [dfs, if_pos h2] using hC
      · by_cases h1 : getColorL st.color node = 1
        · simp only [dfs, if_neg h2, if_pos h1]
          rcases hC with hd | hb2
          · exact Or.inl (DoneAB_mono a b st _ (emitCycle_cycles st node) hd)
          · right
            rw [emitCycle_color]
            exact hb2
        · have h0 : getColorL st.color node = 0 := by
            have := hWc node
            omega
          by_cases hnb : node = b
          · subst hnb
            left
            have hpos : 0 < whiteCount names st.color :=
              whiteCount_pos names st.color node hnn h0
            exact dfs_prod g names a node hab hba han f (by omega) st h2 h1
              hag ((hWF a).mp hag)
          · simp only [dfs, if_neg h2, if_neg h1]
            set st1 : DfsState :=
              { color := (node, 1) :: st.color, path := st.path ++ [node],
                cycles := st.cycles } with hst1
            have hna : node ≠ a := by
              intro he
              rw [he] at h1
              exact h1 hag
            have hag1 : getColorL st1.color a = 1 := by
              rw [hst1]
              show getColorL ((node, 1) :: st.color) a = 1
              rw [getColorL_cons_ne _ _ _ _ hna]
              exact hag
            have hC1 : DoneAB a b st1 ∨ getColorL st1.color b ≠ 2 := by
              rcases hC with hd | hb2
              · exact Or.inl (DoneAB_mono a b st st1 ⟨[], by rw [hst1]; simp⟩ hd)
              · right
                rw [hst1]
                show getColorL ((node, 1) :: st.color) b ≠ 2
                rw [getColorL_cons_ne _ _ _ _ hnb]
                exact hb2
            have hWF1 : WFg st1 := by
              rw [hst1]
              exact WFg_push st node hWF
            have hWc1 : WFc st1.color := by
              rw [hst1]
              exact WFc_push st.color node 1 (by omega) hWc
            have hwc1 : whiteCount names st1.color < f := by
              have hp := whiteCount_push names st node hnn h0
              rw [hst1]
              show whiteCount names ((node, 1) :: st.color) < f
              omega
            have hfold : ∀ (l : List String) (acc : DfsState),
                (DoneAB a b acc ∨ getColorL acc.color b ≠ 2) →
                getColorL acc.color a = 1 → WFg acc → WFc acc.color →
                whiteCount names acc.color < f →
                (DoneAB a b (l.foldl (fun acc nb =>
                    if names.contains nb then dfs g names f nb acc
                    else acc) acc) ∨
                  getColorL ((l.foldl (fun acc nb =>
                    if names.contains nb then dfs g names f nb acc
                    else acc) acc)).color b ≠ 2) := by
              intro l
              induction l with
              | nil =>
                  intro acc hC' _ _ _ _
                  exact hC'
              | cons nb t iht =>
                  intro acc hC' hga hW hWc' hwc'
                  simp only [List.foldl_cons]
                  by_cases hk : names.contains nb
                  · simp only [if_pos hk]
                    exact iht (dfs g names f nb acc)
                      (ih nb acc ((contains_mem names nb).mp hk) hga hW hWc'
                        hwc' hC')
                      ((dfs_post g names f nb acc).2.1 a hga)
                      (dfs_WF g names f nb acc hW)
                      (dfs_WFc g names f nb acc hWc')
                      (Nat.lt_of_le_of_lt
                        (whiteCount_mono_dfs g names f nb acc) hwc')
                  · simp only [if_neg hk]
                    exact iht acc hC' hga hW hWc' hwc'
            have hres := hfold (Model.sortStrings (g node)) st1 hC1 hag1 hWF1
              hWc1 hwc1
            set st2 := (Model.sortStrings (g node)).foldl
              (fun acc nb => if names.contains nb then dfs g names f nb acc
                else acc) st1 with hst2
            rcases hres with hd | hb2'
            · exact Or.inl (DoneAB_mono a b st2 _ ⟨[], by simp⟩ hd)
            · right
              show getColorL ((node, 2) :: st2.color) b ≠ 2
              rw [getColorL_cons_ne _ _ _ _ hnb]
              exact hb2'

/-- Expanding a white `a` while `b` (a mutual import partner of `a`) is
not yet black always emits a qualifying cycle line: the neighbor fold of
`a` reaches `b`, which is gray (back edge through `a`'s path position)
or white (`dfs_prod` closes the cycle through the edge `b → a`). -/
theorem dfs_main_hit (g : String → List String) (names : List String)
    (a b : String) (hab : a ≠ b) (hba : a ∈ g b) (hbb : b ∈ g a)
    (han : a ∈ names) (hbn : b ∈ names) (f : Nat) (st : DfsState)
    (hWF : WFg st) (hWc : WFc st.color)
    (hwc : whiteCount names st.color < f + 1)
    (h2 : getColorL st.color a ≠ 2) (h1 : getColorL st.color a ≠ 1)
    (hb2 : getColorL st.color b ≠ 2) :
    DoneAB a b (dfs g names (f + 1) a st) := by
  have h0 : getColorL st.color a = 0 := by
    have := hWc a
    omega
  have hpos : 0 < whiteCount names st.color :=
    whiteCount_pos names st.color a han h0
  simp only [dfs, if_neg h2, if_neg h1]
  set st1 : DfsState :=
    { color := (a, 1) :: st.color, path := st.path ++ [a],
      cycles := st.cycles } with hst1
  have hag1 : getColorL st1.color a = 1 := by
    rw [hst1]
    exact getColorL_cons_self _ _ _
  have hC1 : DoneAB a b st1 ∨ getColorL st1.color b ≠ 2 := by
    right
    rw [hst1]
    show getColorL ((a, 1) :: st.color) b ≠ 2
    rw [getColorL_cons_ne _ _ _ _ hab]
    exact hb2
  have hWF1 : WFg st1 := by
    rw [hst1]
    exact WFg_push st a hWF
  have hWc1 : WFc st1.color := by
    rw [hst1]
    exact WFc_push st.color a 1 (by omega) hWc
  have hwc1 : whiteCount names st1.color < f := by
    have hp := whiteCount_push names st a han h0
    rw [hst1]
    show whiteCount names ((a, 1) :: st.color) < f
    omega
  have hfoldinv : ∀ (l : List String) (acc : DfsState),
      (DoneAB a b acc ∨ getColorL acc.color b ≠ 2) →
      getColorL acc.color a = 1 → WFg acc → WFc acc.color →
      whiteCount names acc.color < f →
      ((DoneAB a b (l.foldl (fun acc nb => if names.contains nb then
          dfs g names f nb acc else acc) acc) ∨
        getColorL ((l.foldl (fun acc nb => if names.contains nb then
          dfs g names f nb acc else acc) acc)).color b ≠ 2) ∧
       getColorL ((l.foldl (fun acc nb => if names.contains nb then
          dfs g names f nb acc else acc) acc)).color a = 1 ∧
       WFg (l.foldl (fun acc nb => if names.contains nb then
          dfs g names f nb acc else acc) acc) ∧
       WFc ((l.foldl (fun acc nb => if names.contains nb then
          dfs g names f nb acc else acc) acc)).color ∧
       whiteCount names ((l.foldl (fun acc nb => if names.contains nb then
          dfs g names f nb acc else acc) acc)).color < f) := by
    intro l
    induction l with
    | nil =>
        intro acc hC hga hW hWc' hwc'
        exact ⟨hC, hga, hW, hWc', hwc'⟩
    | cons nb t iht =>
        intro acc hC hga hW hWc' hwc'
        simp only [List.foldl_cons]
        by_cases hk : names.contains nb
        · simp only [if_pos hk]
          exact iht (dfs g names f nb acc)
            (dfs_aux g names a b hab hba han hbn f nb acc
              ((contains_mem names nb).mp hk) hga hW hWc' hwc' hC)
            ((dfs_post g names f nb acc).2.1 a hga)
            (dfs_WF g names f nb acc hW)
            (dfs_WFc g names f nb acc hWc')
            (Nat.lt_of_le_of_lt (whiteCount_mono_dfs g names f nb acc) hwc')
        · simp only [if_neg hk]
          exact iht acc hC hga hW hWc' hwc'
  obtain ⟨l1, l2, hsplit⟩ := List.append_of_mem (Model.mem_sortStrings.mpr hbb)
  rw [hsplit]
  simp only [List.foldl_append, List.foldl_cons]
  obtain ⟨hC1', hag1', hWF1', hWc1', hwc1'⟩ :=
    hfoldinv l1 st1 hC1 hag1 hWF1 hWc1 hwc1
  set acc1 := l1.foldl (fun acc nb => if names.contains nb then
    dfs g names f nb acc else acc) st1 with hacc1
  have hpath1 : acc1.path = st.path ++ [a] := by
    rw [hacc1, (dfs_fold_post g names f l1 st1).1, hst1]
  have hkb : names.contains b = true := (contains_mem names b).mpr hbn
  rcases hC1' with hd | hb2'
  · have hstep : DoneAB a b (if names.contains b then
        dfs g names f b acc1 else acc1) := by
      rw [if_pos hkb]
      exact DoneAB_mono a b acc1 _ (dfs_post g names f b acc1).2.2.2.1 hd
    have hl2 := DoneAB_mono a b _ _
      (dfs_fold_post g names f l2 _).2.2.2.1 hstep
    exact DoneAB_mono a b _ _ ⟨[], by simp⟩ hl2
  · by_cases hbg : getColorL acc1.color b = 1
    · obtain ⟨f', hfe⟩ : ∃ f', f = f' + 1 := ⟨f - 1, by omega⟩
      subst hfe
      have hbp : b ∈ acc1.path := (hWF1' b).mp hbg
      obtain ⟨pre, tail, hsp, heq⟩ := splitAtFirst_some acc1.path b hbp
      have hstep : (if names.contains b then dfs g names (f' + 1) b acc1
          else acc1) =
          { acc1 with cycles := acc1.cycles ++
              [String.intercalate " → " ((b :: tail) ++ [b])] } := by
        rw [if_pos hkb]
        simp only [dfs, if_neg hb2', if_pos hbg, emitCycle, hsp]
      rw [hstep]
      have hdone : DoneAB a b { acc1 with cycles := acc1.cycles ++
          [String.intercalate " → " ((b :: tail) ++ [b])] } := by
        refine ⟨(b :: tail) ++ [b], by simp, ?_, ?_, ?_, ?_⟩
        · rw [List.getLast?_concat]
          rfl
        · have hlastp : (pre ++ b :: tail).getLast? = some a := by
            rw [← heq, hpath1]
            exact List.getLast?_concat _
          exact List.mem_append_left _
            (List.mem_cons_of_mem b
              (mem_tail_of_getLast? pre tail b a hlastp (Ne.symm hab)))
        · exact List.mem_append_left _ (List.mem_cons_self b tail)
        · exact List.mem_append_right _ (by simp)
      have hl2 := DoneAB_mono a b _ _
        (dfs_fold_post g names (f' + 1) l2 _).2.2.2.1 hdone
      exact DoneAB_mono a b _ _ ⟨[], by simp⟩ hl2
    · have hb0 : getColorL acc1.color b = 0 := by
        have := hWc1' b
        omega
      have hposb : 0 < whiteCount names acc1.color :=
        whiteCount_pos names acc1.color b hbn hb0
      obtain ⟨f', hfe⟩ : ∃ f', f = f' + 1 := ⟨f - 1, by omega⟩
      subst hfe
      have hdone : DoneAB a b (if names.contains b then
          dfs g names (f' + 1) b acc1 else acc1) := by
        rw [if_pos hkb]
        exact dfs_prod g names a b hab hba han f' (by omega) acc1 hb2' hbg
          hag1' ((hWF1' a).mp hag1')
      have hl2 := DoneAB_mono a b _ _
        (dfs_fold_post g names (f' + 1) l2 _).2.2.2.1 hdone
      exact DoneAB_mono a b _ _ ⟨[], by simp⟩ hl2

/-- Main invariant: either a qualifying cycle line has been emitted, or
neither `a` nor `b` is black yet. -/
theorem dfs_main (g : String → List String) (names : List String)
    (a b : String) (hab : a ≠ b) (hba : a ∈ g b) (hbb : b ∈ g a)
    (han : a ∈ names) (hbn : b ∈ names) :
    ∀ fuel node st, node ∈ names → WFg st → WFc st.color →
      whiteCount names st.color < fuel →
      (DoneAB a b st ∨
        (getColorL st.color a ≠ 2 ∧ getColorL st.color b ≠ 2)) →
      (DoneAB a b (dfs g names fuel node st) ∨
        (getColorL (dfs g names fuel node st).color a ≠ 2 ∧
          getColorL (dfs g names fuel node st).color b ≠ 2)) := by
  intro fuel
  induction fuel with
  | zero =>
      intro node st _ _ _ hwc _
      omega
  | succ f ih =>
      intro node st hnn hWF hWc hwc hP
      by_cases h2 : getColorL st.color node = 2
      · simpa only [dfs, if_pos h2] using hP
      · by_cases h1 : getColorL st.color node = 1
        · simp only [dfs, if_neg h2, if_pos h1]
          rcases hP with hd | hab2
          · exact Or.inl (DoneAB_mono a b st _ (emitCycle_cycles st node) hd)
          · right
            rw [emitCycle_color]
            exact hab2
        · rcases hP with hd | ⟨ha2, hb2⟩
          · exact Or.inl (DoneAB_mono a b st _
              (dfs_post g names (f + 1) node st).2.2.2.1 hd)
          · by_cases hna : node = a
            · subst hna
              exact Or.inl (dfs_main_hit g names node b hab hba hbb han hbn
                f st hWF hWc hwc h2 h1 hb2)
            · by_cases hnb : node = b
              · subst hnb
                refine Or.inl (DoneAB_swap node a _ ?_)
                exact dfs_main_hit g names node a (Ne.symm hab) hbb hba hbn
                  han f st hWF hWc hwc h2 h1 ha2
              · have h0 : getColorL st.color node = 0 := by
                  have := hWc node
                  omega
                simp only [dfs, if_neg h2, if_neg h1]
                set st1 : DfsState :=
                  { color := (node, 1) :: st.color,
                    path := st.path ++ [node], cycles := st.cycles } with hst1
                have hP1 : DoneAB a b st1 ∨
                    (getColorL st1.color a ≠ 2 ∧
                      getColorL st1.color b ≠ 2) := by
                  right
                  rw [hst1]
                  constructor
                  · show getColorL ((node, 1) :: st.color) a ≠ 2
                    rw [getColorL_cons_ne _ _ _ _ hna]
                    exact ha2
                  · show getColorL ((node, 1) :: st.color) b ≠ 2
                    rw [getColorL_cons_ne _ _ _ _ hnb]
                    exact hb2
                have hWF1 : WFg st1 := by
                  rw [hst1]
                  exact WFg_push st node hWF
                have hWc1 : WFc st1.color := by
                  rw [hst1]
                  exact WFc_push st.color node 1 (by omega) hWc
                have hwc1 : whiteCount names st1.color < f := by
                  have hp := whiteCount_push names st node hnn h0
                  rw [hst1]
                  show whiteCount names ((node, 1) :: st.color) < f
                  omega
                have hfold : ∀ (l : List String) (acc : DfsState),
                    (DoneAB a b acc ∨ (getColorL acc.color a ≠ 2 ∧
                      getColorL acc.color b ≠ 2)) →
                    WFg acc → WFc acc.color →
                    whiteCount names acc.color < f →
                    (DoneAB a b (l.foldl (fun acc nb =>
                        if names.contains nb then dfs g names f nb acc
                        else acc) acc) ∨
                      (getColorL ((l.foldl (fun acc nb =>
                        if names.contains nb then dfs g names f nb acc
                        else acc) acc)).color a ≠ 2 ∧
                       getColorL ((l.foldl (fun acc nb =>
                        if names.contains nb then dfs g names f nb acc
                        else acc) acc)).color b ≠ 2)) := by
                  intro l
                  induction l with
                  | nil =>
                      intro acc hPa _ _ _
                      exact hPa
                  | cons nb t iht =>
                      intro acc hPa hW hWc' hwc'
                      simp only [List.foldl_cons]
                      by_cases hk : names.contains nb
                      · simp only [if_pos hk]
                        exact iht (dfs g names f nb acc)
                          (ih nb acc ((contains_mem names nb).mp hk) hW hWc'
                            hwc' hPa)
                          (dfs_WF g names f nb acc hW)
                          (dfs_WFc g names f nb acc hWc')
                          (Nat.lt_of_le_of_lt
                            (whiteCount_mono_dfs g names f nb acc) hwc')
                      · simp only [if_neg hk]
                        exact iht acc hPa hW hWc' hwc'
                have hres := hfold (Model.sortStrings (g node)) st1 hP1 hWF1
                  hWc1 hwc1
                set st2 := (Model.sortStrings (g node)).foldl
                  (fun acc nb => if names.contains nb then
                    dfs g names f nb acc else acc) st1 with hst2
                rcases hres with hd | ⟨ha2', hb2'⟩
                · exact Or.inl (DoneAB_mono a b st2 _ ⟨[], by simp⟩ hd)
                · right
                  constructor
                  · show getColorL ((node, 2) :: st2.color) a ≠ 2
                    rw [getColorL_cons_ne _ _ _ _ hna]
                    exact ha2'
                  · show getColorL ((node, 2) :: st2.color) b ≠ 2
                    rw [getColorL_cons_ne _ _ _ _ hnb]
                    exact hb2'

/-- After the top-level fold of `findCycles`, every listed node is
black: a skipped node was already non-white (and never gray at top
level, the path being empty), and a visited node is blackened on exit. -/
theorem fold_black (g : String → List String) (names : List String)
    (fuel : Nat) (hfuel : 0 < fuel) :
    ∀ (l : List String) (st : DfsState), WFg st → WFc st.color →
      st.path = [] →
      ∀ x ∈ l, getColorL ((l.foldl (fun st node =>
        if getColorL st.color node = 0 then dfs g names fuel node st
        else st) st)).color x = 2 := by
  intro l
  induction l with
  | nil =>
      intro st _ _ _ x hx
      cases hx
  | cons y t ih =>
      intro st hWF hWc hpath x hx
      simp only [List.foldl_cons]
      have hyb : getColorL ((if getColorL st.color y = 0 then
          dfs g names fuel y st else st)).color y = 2 := by
        by_cases h0 : getColorL st.color y = 0
        · rw [if_pos h0]
          obtain ⟨f, hfe⟩ : ∃ f, fuel = f + 1 := ⟨fuel - 1, by omega⟩
          subst hfe
          have h2 : getColorL st.color y ≠ 2 := by omega
          have h1 : getColorL st.color y ≠ 1 := by omega
          simp only [dfs, if_neg h2, if_neg h1]
          exact getColorL_cons_self _ _ _
        · rw [if_neg h0]
          have hg1 : getColorL st.color y ≠ 1 := by
            intro hg
            have hmem := (hWF y).mp hg
            rw [hpath] at hmem
            cases hmem
          have := hWc y
          omega
      have hW' : WFg ((if getColorL st.color y = 0 then
          dfs g names fuel y st else st)) := by
        by_cases h0 : getColorL st.color y = 0
        · rw [if_pos h0]
          exact dfs_WF g names fuel y st hWF
        · rw [if_neg h0]
          exact hWF
      have hWc' : WFc ((if getColorL st.color y = 0 then
          dfs g names fuel y st else st)).color := by
        by_cases h0 : getColorL st.color y = 0
        · rw [if_pos h0]
          exact dfs_WFc g names fuel y st hWc
        · rw [if_neg h0]
          exact hWc
      have hp' : ((if getColorL st.color y = 0 then
          dfs g names fuel y st else st)).path = [] := by
        by_cases h0 : getColorL st.color y = 0
        · rw [if_pos h0, (dfs_post g names fuel y st).1, hpath]
        · rw [if_neg h0, hpath]
      rcases List.mem_cons.mp hx with rfl | hxt
      · apply foldl_inv _ (fun acc => getColorL acc.color x = 2) t _ hyb
        intro acc z hacc
        by_cases h0 : getColorL acc.color z = 0
        · rw [if_pos h0]
          exact (dfs_post g names fuel z acc).2.2.1 x hacc
        · rw [if_neg h0]
          exact hacc
      · exact ih _ hW' hWc' hp' x hxt

/-- Completeness of `findCycles`: mutually importing known packages
force an emitted cycle line that starts and ends with the same package
and mentions both. -/
theorem findCycles_complete (packages : List Model.PackageEntry)
    (a b : String) (hab : a ≠ b)
    (han : a ∈ (packages.map (fun p => p.name)).dedup)
    (hbn : b ∈ (packages.map (fun p => p.name)).dedup)
    (hba : a ∈ graphOf packages b) (hbb : b ∈ graphOf packages a) :
    ∃ l : List String, l ≠ [] ∧ l.head? = l.getLast? ∧ a ∈ l ∧ b ∈ l ∧
      String.intercalate " → " l ∈ findCycles packages := by
  set names := (packages.map (fun p => p.name)).dedup with hnames
  set g := graphOf packages with hgdef
  set nodes := Model.sortStrings names with hnodes
  set fuel := names.length + 1 with hfuel
  set F := nodes.foldl (fun st node => if getColorL st.color node = 0 then
    dfs g names fuel node st else st) (⟨[], [], []⟩ : DfsState) with hF
  have hfind : findCycles packages = F.cycles := rfl
  have hWg0 : WFg (⟨[], [], []⟩ : DfsState) := by
    intro n
    simp [getColorL]
  have hWc0 : WFc ((⟨[], [], []⟩ : DfsState).color) := by
    intro n
    simp [getColorL]
  have hinv : (DoneAB a b F ∨ (getColorL F.color a ≠ 2 ∧
      getColorL F.color b ≠ 2)) ∧ WFg F ∧ WFc F.color := by
    rw [hF]
    apply foldl_inv_mem _
      (fun st => (DoneAB a b st ∨ (getColorL st.color a ≠ 2 ∧
        getColorL st.color b ≠ 2)) ∧ WFg st ∧ WFc st.color) nodes _
      ⟨Or.inr ⟨by simp [getColorL], by simp [getColorL]⟩, hWg0, hWc0⟩
    intro acc x hxmem hacc
    obtain ⟨hPt, hW, hWc'⟩ := hacc
    by_cases h0 : getColorL acc.color x = 0
    · rw [if_pos h0]
      refine ⟨?_, dfs_WF g names fuel x acc hW,
        dfs_WFc g names fuel x acc hWc'⟩
      apply dfs_main g names a b hab hba hbb han hbn fuel x acc ?_ hW hWc'
        ?_ hPt
      · rw [hnodes] at hxmem
        exact Model.mem_sortStrings.mp hxmem
      · have hle := whiteCount_le names acc.color
        rw [hfuel]
        omega
    · rw [if_neg h0]
      exact ⟨hPt, hW, hWc'⟩
  have hblack : ∀ x ∈ nodes, getColorL F.color x = 2 := by
    intro x hx
    rw [hF]
    exact fold_black g names fuel (by rw [hfuel]; omega) nodes
      (⟨[], [], []⟩ : DfsState) hWg0 hWc0 rfl x hx
  have hamem : a ∈ nodes := by
    rw [hnodes]
    exact Model.mem_sortStrings.mpr han
  have ha2 : getColorL F.color a = 2 := hblack a hamem
  rcases hinv.1 with hd | ⟨ha2', _⟩
  · obtain ⟨l, h1, h2, h3, h4, h5⟩ := hd
    exact ⟨l, h1, h2, h3, h4, by rw [hfind]; exact h5⟩
  · exact absurd ha2 ha2'

/-! ### Locating a cycle line inside the rendered report -/

theorem render_shift :
    ∀ (l : List String) (init : String),
      l.foldl (fun acc c => acc ++ "- " ++ c ++ "\n") init =
        init ++ l.foldl (fun acc c => acc ++ "- " ++ c ++ "\n") "" := by
  intro l
  induction l with
  | nil =>
      intro init
      simp [String.append_empty]
  | cons c t ih =>
      intro init
      simp only [List.foldl_cons]
      rw [ih (init ++ "- " ++ c ++ "\n"), ih ("" ++ "- " ++ c ++ "\n")]
      simp [String.append_assoc, String.empty_append]

theorem render_mem (x : String) :
    ∀ (l : List String) (init : String), x ∈ l →
      ∃ p s, l.foldl (fun acc c => acc ++ "- " ++ c ++ "\n") init =
        p ++ ("- " ++ x ++ "\n") ++ s := by
  intro l
  induction l with
  | nil =>
      intro init hx
      cases hx
  | cons c t ih =>
      intro init hx
      rcases List.mem_cons.mp hx with rfl | hxt
      · refine ⟨init, t.foldl (fun acc c => acc ++ "- " ++ c ++ "\n") "", ?_⟩
        simp only [List.foldl_cons]
        rw [render_shift t (init ++ "- " ++ x ++ "\n")]
        simp [String.append_assoc]
      · obtain ⟨p, s, hps⟩ := ih (init ++ "- " ++ c ++ "\n") hxt
        exact ⟨p, s, by simp only [List.foldl_cons]; exact hps⟩

theorem importCyclesSection_mem (packages : List Model.PackageEntry)
    (line : String) (h : line ∈ findCycles packages) :
    ∃ p s, importCyclesSection packages =
      p ++ ("- " ++ line ++ "\n") ++ s := by
  obtain ⟨p, s, hps⟩ := render_mem line (findCycles packages) "" h
  refine ⟨"## Import Cycles\n\n" ++ p, s, ?_⟩
  show "## Import Cycles\n\n" ++
      (if (findCycles packages).isEmpty then "_None found._\n"
       else (findCycles packages).foldl
         (fun acc c => acc ++ "- " ++ c ++ "\n") "") = _
  have hne : (findCycles packages).isEmpty = false := by
    simp [List.isEmpty_iff]
    exact List.ne_nil_of_mem h
  rw [if_neg (by rw [hne]; simp), hps]
  simp [String.append_assoc]

theorem importCyclesSection_none (packages : List Model.PackageEntry)
    (h : findCycles packages = []) :
    importCyclesSection packages =
      "## Import Cycles\n\n_None found._\n" := by
  show "## Import Cycles\n\n" ++
      (if (findCycles packages).isEmpty then "_None found._\n"
       else (findCycles packages).foldl
         (fun acc c => acc ++ "- " ++ c ++ "\n") "") = _
  rw [h]
  decide

/-! ### The import graph read off the package inventory -/

/-- With distinct package names, `graphOf` returns exactly the
stored import list of the (unique) entry, provided it is non-empty. -/
theorem graphOf_eq (packages : List Model.PackageEntry)
    (hnodup : (packages.map (fun p => p.name)).Nodup)
    (pa : Model.PackageEntry) (hpa : pa ∈ packages)
    (hne : pa.imports ≠ []) :
    graphOf packages pa.name = pa.imports := by
  unfold graphOf
  have hfind : packages.reverse.find?
      (fun p => p.name == pa.name && !p.imports.isEmpty) = some pa := by
    apply Model.find?_unique _ _ pa (List.mem_reverse.mpr hpa)
    · simp [List.isEmpty_iff, hne]
    · intro c hc hpc
      simp only [Bool.and_eq_true, beq_iff_eq] at hpc
      exact List.inj_on_of_nodup_map hnodup (List.mem_reverse.mp hc) hpa
        hpc.1
  rw [hfind]
  rfl

/-- Conversely, every neighbor read off `graphOf` is a stored import of
some entry with the queried name. -/
theorem graphOf_mem_inv (packages : List Model.PackageEntry)
    (v x : String) (h : x ∈ graphOf packages v) :
    ∃ p ∈ packages, p.name = v ∧ x ∈ p.imports := by
  unfold graphOf at h
  cases hf : packages.reverse.find?
      (fun p => p.name == v && !p.imports.isEmpty) with
  | none =>
      rw [hf] at h
      cases h
  | some p =>
      rw [hf] at h
      have hmem := List.mem_reverse.mp (List.mem_of_find?_eq_some hf)
      have hpred := List.find?_some hf
      simp only [Bool.and_eq_true, beq_iff_eq] at hpred
      exact ⟨p, hmem, hpred.1, h⟩

/-- Edges that uniformly increase a rank admit no closed chain. -/
theorem chain_rank {α : Type} {R : α → α → Prop} {f : α → Nat}
    (hR : ∀ u w, R u w → f u < f w) :
    ∀ (l : List α) (v : α), List.Chain R v l → ∀ w ∈ l, f v < f w := by
  intro l
  induction l with
  | nil =>
      intro v _ w hw
      cases hw
  | cons x t ih =>
      intro v hch w hw
      cases hch with
      | cons h1 h2 =>
          rcases List.mem_cons.mp hw with rfl | hw'
          · exact hR v w h1
          · exact Nat.lt_trans (hR v x h1) (ih x h2 w hw')

/-- What C8 asserts of a mutual import: some cycle line of `findCycles`
starts and ends with the same package name, mentions both packages, and
appears as a `- <cycle>` bullet inside the rendered risk.md. -/
def CycleReported (sys : Model.SystemModel) (a b : String) : Prop :=
  ∃ l : List String, l ≠ [] ∧ l.head? = l.getLast? ∧ a ∈ l ∧ b ∈ l ∧
    String.intercalate " → " l ∈ findCycles sys.inventory.packages ∧
    ∃ pre suf, buildRiskReport sys =
      pre ++ ("- " ++ String.intercalate " → " l ++ "\n") ++ suf

/-- What C8 asserts of an acyclic import graph: no cycle strings, and
the rendered risk.md ends with the literal empty-section text. -/
def NoneFound (sys : Model.SystemModel) : Prop :=
  findCycles sys.inventory.packages = [] ∧
  ∃ pre, buildRiskReport sys =
    pre ++ "## Import Cycles\n\n_None found._\n"

/-- C8. If the inventory contains two distinct packages that import
each other, the projected risk.md contains a cycle bullet whose
" → "-joined line starts and ends with the same package and mentions
both; if the known-package import graph is acyclic, `findCycles` emits
nothing and the report's Import Cycles section reads `_None found._`. -/
theorem riskReport_importCycles :
    (∀ (sys : Model.SystemModel) (a b : String)
        (pa pb : Model.PackageEntry),
        a ≠ b →
        (sys.inventory.packages.map (fun p => p.name)).Nodup →
        pa ∈ sys.inventory.packages → pa.name = a → b ∈ pa.imports →
        pb ∈ sys.inventory.packages → pb.name = b → a ∈ pb.imports →
        CycleReported sys a b) ∧
    (∀ sys : Model.SystemModel,
        ¬ HasCycleG (graphOf sys.inventory.packages)
          ((sys.inventory.packages.map (fun p => p.name)).dedup) →
        NoneFound sys) := by
  constructor
  · intro sys a b pa pb hab hnodup hpa hpan hpab hpb hpbn hpba
    have hga : graphOf sys.inventory.packages a = pa.imports := by
      rw [← hpan]
      exact graphOf_eq sys.inventory.packages hnodup pa hpa
        (List.ne_nil_of_mem hpab)
    have hgb : graphOf sys.inventory.packages b = pb.imports := by
      rw [← hpbn]
      exact graphOf_eq sys.inventory.packages hnodup pb hpb
        (List.ne_nil_of_mem hpba)
    have han : a ∈ (sys.inventory.packages.map (fun p => p.name)).dedup :=
      List.mem_dedup.mpr (List.mem_map.mpr ⟨pa, hpa, hpan⟩)
    have hbn : b ∈ (sys.inventory.packages.map (fun p => p.name)).dedup :=
      List.mem_dedup.mpr (List.mem_map.mpr ⟨pb, hpb, hpbn⟩)
    obtain ⟨l, h1, h2, h3, h4, h5⟩ := findCycles_complete
      sys.inventory.packages a b hab han hbn
      (by rw [hgb]; exact hpba) (by rw [hga]; exact hpab)
    obtain ⟨p, s, hps⟩ := importCyclesSection_mem sys.inventory.packages _ h5
    unfold CycleReported
    refine ⟨l, h1, h2, h3, h4, h5,
      frontmatterStr ["iguana/risk"] ++ "# Risk Report\n\n" ++
        inDegreeSection sys.inventory.packages ++
        writeDomainsSection sys.effects ++ p, s, ?_⟩
    simp only [buildRiskReport]
    rw [hps]
    simp [String.append_assoc]
  · intro sys hacyc
    have h0 := findCycles_sound sys.inventory.packages hacyc
    unfold NoneFound
    refine ⟨h0, frontmatterStr ["iguana/risk"] ++ "# Risk Report\n\n" ++
      inDegreeSection sys.inventory.packages ++
      writeDomainsSection sys.effects, ?_⟩
    simp only [buildRiskReport]
    rw [importCyclesSection_none sys.inventory.packages h0]

/-- A two-package inventory with a mutual import. -/
def sysAB : Model.SystemModel :=
  { version := 1
    generatedAt := ""
    inputs := { bundleSetSHA256 := "" }
    inventory :=
      { packages :=
          [ { name := "alpha", files := [], imports := ["beta"],
              evidenceRefs := [] },
            { name := "beta", files := [], imports := ["alpha"],
              evidenceRefs := [] } ]
        entrypoints := [] }
    stateDomains := []
    boundaries := { persistence := [], network := none }
    effects := []
    trustZones := []
    concurrencyDomains := []
    openQuestions := [] }

/-- A three-package inventory with the acyclic chain
alpha → beta → gamma. -/
def chainPkgs : List Model.PackageEntry :=
  [ { name := "alpha", files := [], imports := ["beta"],
      evidenceRefs := [] },
    { name := "beta", files := [], imports := ["gamma"],
      evidenceRefs := [] },
    { name := "gamma", files := [], imports := [], evidenceRefs := [] } ]

def sysChain : Model.SystemModel :=
  { version := 1
    generatedAt := ""
    inputs := { bundleSetSHA256 := "" }
    inventory := { packages := chainPkgs, entrypoints := [] }
    stateDomains := []
    boundaries := { persistence := [], network := none }
    effects := []
    trustZones := []
    concurrencyDomains := []
    openQuestions := [] }

/-- Rank separating the chain packages (acyclicity witness). -/
def chainRank (s : String) : Nat :=
  if s = "alpha" then 0 else if s = "beta" then 1 else 2

/-- C8 witness: the mutual import alpha ↔ beta is reported, and the
acyclic chain alpha → beta → gamma renders `_None found._`. -/
theorem riskReport_importCycles_witness :
    CycleReported sysAB "alpha" "beta" ∧ NoneFound sysChain := by
  constructor
  · exact riskReport_importCycles.1 sysAB "alpha" "beta"
      { name := "alpha", files := [], imports := ["beta"],
        evidenceRefs := [] }
      { name := "beta", files := [], imports := ["alpha"],
        evidenceRefs := [] }
      (by decide) (by decide) (by decide) rfl (by decide)
      (by decide) rfl (by decide)
  · apply riskReport_importCycles.2 sysChain
    rintro ⟨v, l, hch, hlast⟩
    have hedge : ∀ u w, EdgeK (graphOf sysChain.inventory.packages)
        ((sysChain.inventory.packages.map (fun p => p.name)).dedup) u w →
        chainRank u < chainRank w := by
      intro u w hE
      obtain ⟨p, hp, hpn, hwi⟩ := graphOf_mem_inv _ u w hE.1
      have hp' : p ∈ chainPkgs := hp
      simp only [chainPkgs, List.mem_cons, List.not_mem_nil, or_false]
        at hp'
      rcases hp' with rfl | rfl | rfl
      · have hu : u = "alpha" := hpn.symm
        have hw : w = "beta" := by simpa using hwi
        subst hu
        subst hw
        decide
      · have hu : u = "beta" := hpn.symm
        have hw : w = "gamma" := by simpa using hwi
        subst hu
        subst hw
        decide
      · simp at hwi
    cases l with
    | nil => exact Option.noConfusion hlast
    | cons x t =>
        have hv := chain_rank hedge (x :: t) v hch v
          (List.mem_of_mem_getLast? hlast)
        omega

end Export

end Iguana
